import Mathlib

/-!
Shallow embedding of the deployfix constraint-model and solver core
(src/model/rule.rs, src/model/entity.rs, src/solver/map.rs,
src/solver/unknown.rs, src/solver/ring.rs, src/solver/solver.rs,
src/solver/z3.rs, src/plugin/k8s/cli.rs), together with theorems
settling the specification claims about it.

Modelling conventions:
* Rust `String` is Lean `String`; `usize` / `NonZeroUsize` are `Nat`.
* `BTreeSet` / `BTreeMap` / `Vec` are modelled by `List` carrying the
  iteration sequence; `HashMap` / `HashSet` by association lists / lists
  whose iteration order is the list order (the Rust order is
  unspecified, so theorems below are membership-based unless a claim is
  specifically about ordering).
* The z3 backend is external to the repository; it is modelled by an
  assertion stack plus an oracle for `check` outcomes.
-/

namespace DeployFix

/-- `EntityRuleType` from src/model/rule.rs: require or exclude. -/
inductive EntityRuleType where
  | require : EntityRuleType
  | exclude : EntityRuleType
deriving DecidableEq

/-- `EntityRuleSource` from src/model/rule.rs: file path + line, or unknown. -/
inductive EntityRuleSource where
  | file (path : String) (line : Nat) : EntityRuleSource
  | unknown : EntityRuleSource
deriving DecidableEq

/-- `EntityRuleMetadata` from src/model/rule.rs; the `BTreeMap` of free
key/value pairs is modelled as its iteration sequence. -/
structure EntityRuleMetadata where
  file : Option String
  line : Option Nat
  metadata : Option (List (String × String))
deriving DecidableEq

/-- `EntityRule` from src/model/rule.rs: Mono (one target) or Multi (a
target set, modelled as its iteration sequence). -/
inductive EntityRule where
  | mono (source : String) (target : String) (rtype : EntityRuleType)
      (rule_source : EntityRuleSource) (metadata : Option EntityRuleMetadata) : EntityRule
  | multi (source : String) (targets : List String) (rtype : EntityRuleType)
      (rule_source : EntityRuleSource) (metadata : Option EntityRuleMetadata) : EntityRule
deriving DecidableEq

/-- `EntitySource` from src/model/entity.rs. -/
inductive EntitySource where
  | file (path : String) : EntitySource
  | unknown : EntitySource
deriving DecidableEq

/-- `EntityPriority` from src/model/entity.rs. -/
inductive EntityPriority where
  | critical : EntityPriority
  | default : EntityPriority
deriving DecidableEq

/-- `Entity` from src/model/entity.rs; the two `BTreeSet<EntityRule>`
fields are modelled as their iteration sequences. -/
structure Entity where
  name : String
  requires : List EntityRule
  excludes : List EntityRule
  source : EntitySource
  priority : EntityPriority
deriving DecidableEq

namespace EntityRule

/-- `EntityRule::source` accessor. -/
def src : EntityRule → String
  | .mono s _ _ _ _ => s
  | .multi s _ _ _ _ => s

/-- `EntityRule::targets` accessor (Mono yields a singleton). -/
def targets : EntityRule → List String
  | .mono _ t _ _ _ => [t]
  | .multi _ ts _ _ _ => ts

/-- `EntityRule::r#type` accessor. -/
def rtype : EntityRule → EntityRuleType
  | .mono _ _ ty _ _ => ty
  | .multi _ _ ty _ _ => ty

/-- `EntityRule::is_require`. -/
def is_require (r : EntityRule) : Bool := r.rtype = EntityRuleType.require

/-- `EntityRule::is_exclude`. -/
def is_exclude (r : EntityRule) : Bool := r.rtype = EntityRuleType.exclude

/-- `EntityRule::is_in_target` from src/model/rule.rs lines 356-361,
translated literally: in the Mono arm the pattern binder `target`
shadows the function parameter, so the comparison `target == target`
compares the rule's own target with itself. -/
def is_in_target (r : EntityRule) (t : String) : Bool :=
  match r with
  | .mono _ target _ _ _ => target == target
  | .multi _ targets _ _ _ => targets.contains t

end EntityRule

/-- `Entity::rules`: requires then excludes. -/
def Entity.rules (e : Entity) : List EntityRule := e.requires ++ e.excludes

/-- `Entity::is_dummy`. -/
def Entity.is_dummy (e : Entity) : Bool := e.requires.isEmpty && e.excludes.isEmpty

/-! ### The derived total order on rules

Rust's `derive(PartialOrd, Ord)` on `EntityRule` compares the variant
tag first (`Mono < Multi`) and then the fields lexicographically in
declaration order; nested types are again compared by their derived
orders (`None < Some` for `Option`, element-wise lexicographic for
sequences).  We realise the same order by an injective key into
lexicographic products and pull the `LinearOrder` back along it. -/

/-- `Option` under a key function, `None` below every `Some` (Rust's
derived `Ord` on `Option`). -/
def obot {α β : Type} (f : α → β) : Option α → WithBot β
  | none => ⊥
  | some x => (f x : β)

theorem obot_injective {α β : Type} {f : α → β} (hf : Function.Injective f) :
    Function.Injective (obot f) := by
  intro a b h
  cases a <;> cases b <;> simp [obot] at h ⊢
  exact hf h

/-- Strings are keyed by their character sequence, compared
lexicographically (as Rust compares `String`s byte-wise). -/
def strKey (s : String) : List Char := s.data

theorem strKey_injective : Function.Injective strKey := by
  intro a b h
  cases a
  cases b
  simp only [strKey] at h
  simp [h]

/-- Key of a pair of strings. -/
def strPairKey (p : String × String) : (List Char) ×ₗ (List Char) :=
  toLex (strKey p.1, strKey p.2)

theorem strPairKey_injective : Function.Injective strPairKey := by
  intro a b h
  simp only [strPairKey, toLex_inj, Prod.mk.injEq] at h
  exact Prod.ext (strKey_injective h.1) (strKey_injective h.2)

/-- Key of `EntityRuleType` (Require < Exclude, as derived). -/
def typeKey : EntityRuleType → Bool
  | .require => false
  | .exclude => true

/-- Key of `EntityRuleSource` (`File(path, line) < Unknown`, as derived). -/
def sourceKey : EntityRuleSource → WithTop ((List Char) ×ₗ Nat)
  | .file p l => ((toLex (strKey p, l) : (List Char) ×ₗ Nat) : WithTop ((List Char) ×ₗ Nat))
  | .unknown => ⊤

/-- The key type of `EntityRuleMetadata`. -/
abbrev MetaKeyT : Type :=
  (WithBot (List Char)) ×ₗ (WithBot Nat) ×ₗ (WithBot (List ((List Char) ×ₗ (List Char))))

/-- Key of `EntityRuleMetadata` (fields lexicographically). -/
def metaKey (m : EntityRuleMetadata) : MetaKeyT :=
  toLex (obot strKey m.file,
    toLex (obot id m.line, obot (fun l => l.map strPairKey) m.metadata))

/-- The key type of one rule variant with target slot `α`. -/
abbrev FieldsKeyT (α : Type) : Type :=
  (List Char) ×ₗ α ×ₗ Bool ×ₗ (WithTop ((List Char) ×ₗ Nat)) ×ₗ (WithBot MetaKeyT)

/-- Shared key shape of one rule variant: source, target(s), type,
rule_source, metadata, lexicographically. -/
def fieldsKey {α : Type} (tk : α) (s : String) (ty : EntityRuleType)
    (rs : EntityRuleSource) (md : Option EntityRuleMetadata) : FieldsKeyT α :=
  toLex (strKey s, toLex (tk, toLex (typeKey ty, toLex (sourceKey rs, obot metaKey md))))

/-- Injective key of `EntityRule` realising the derived total order. -/
def ruleKey (r : EntityRule) :
    Lex (FieldsKeyT (List Char) ⊕ FieldsKeyT (List (List Char))) :=
  match r with
  | .mono s t ty rs md => toLex (Sum.inl (fieldsKey (strKey t) s ty rs md))
  | .multi s ts ty rs md => toLex (Sum.inr (fieldsKey (ts.map strKey) s ty rs md))

theorem typeKey_injective : Function.Injective typeKey := by
  intro a b h
  cases a <;> cases b <;> simp [typeKey] at h ⊢

theorem sourceKey_injective : Function.Injective sourceKey := by
  intro a b h
  cases a <;> cases b <;> simp [sourceKey] at h ⊢
  exact ⟨strKey_injective h.1, h.2⟩

theorem metaKey_injective : Function.Injective metaKey := by
  intro a b h
  cases a with
  | mk af al am =>
    cases b with
    | mk bf bl bm =>
      simp only [metaKey, toLex_inj, Prod.mk.injEq] at h
      obtain ⟨h1, h2, h3⟩ := h
      have hm : Function.Injective
          (fun l : List (String × String) => l.map strPairKey) := by
        intro x y hxy
        exact List.map_injective_iff.mpr strPairKey_injective hxy
      simp only [EntityRuleMetadata.mk.injEq]
      exact ⟨obot_injective strKey_injective h1,
        obot_injective (fun x y hxy => hxy) h2, obot_injective hm h3⟩

theorem ruleKey_injective : Function.Injective ruleKey := by
  intro a b h
  cases a <;> cases b <;>
    simp only [ruleKey, fieldsKey, toLex_inj, Sum.inl.injEq, Sum.inr.injEq,
      Prod.mk.injEq, reduceCtorEq] at h
  case mono.mono =>
    obtain ⟨h1, h2, h3, h4, h5⟩ := h
    simp only [EntityRule.mono.injEq]
    exact ⟨strKey_injective h1, strKey_injective h2, typeKey_injective h3,
      sourceKey_injective h4, obot_injective metaKey_injective h5⟩
  case multi.multi =>
    obtain ⟨h1, h2, h3, h4, h5⟩ := h
    simp only [EntityRule.multi.injEq]
    exact ⟨strKey_injective h1,
      List.map_injective_iff.mpr strKey_injective h2, typeKey_injective h3,
      sourceKey_injective h4, obot_injective metaKey_injective h5⟩

instance : LinearOrder EntityRule := LinearOrder.lift' ruleKey ruleKey_injective

/-! ### src/solver/solver.rs : `SolverOutput`, merge, display -/

/-- Rust `Vec::sort` on rule lists, i.e. stable sort by the derived
total order.  A stable sort by a total (antisymmetric) order is
extensionally unique, so insertion sort is an exact model. -/
def rustSort (l : List EntityRule) : List EntityRule := l.insertionSort (· ≤ ·)

/-- Rust `Vec::dedup`: removes consecutive equal elements. -/
def rustDedup {α : Type} [DecidableEq α] : List α → List α
  | [] => []
  | [a] => [a]
  | a :: b :: t => if a = b then rustDedup (b :: t) else a :: rustDedup (b :: t)

/-- `SolverOutput` from src/solver/solver.rs; the conflict `HashMap` is
modelled as an association list carrying one iteration order. -/
inductive SolverOutput where
  | ok : SolverOutput
  | conflict (conflicts : List (String × List EntityRule)) : SolverOutput
deriving DecidableEq

/-- `SolverOutput::new_conflict`: sorts and dedups every rule list. -/
def SolverOutput.new_conflict (conflicts : List (String × List EntityRule)) : SolverOutput :=
  .conflict (conflicts.map (fun nr => (nr.1, rustDedup (rustSort nr.2))))

/-- `HashMap` lookup on the association-list model. -/
def alookup {β : Type} (n : String) : List (String × β) → Option β
  | [] => none
  | p :: t => if p.1 = n then some p.2 else alookup n t

/-- One step of `SolverOutput::merge`'s Conflict⊕Conflict loop: if `name`
is already bound, extend its list with `rules`, sort and dedup it;
otherwise insert the binding. -/
def upsertMerge (acc : List (String × List EntityRule)) (name : String)
    (rules : List EntityRule) : List (String × List EntityRule) :=
  match acc with
  | [] => [(name, rules)]
  | p :: t =>
    if p.1 = name then (p.1, rustDedup (rustSort (p.2 ++ rules))) :: t
    else p :: upsertMerge t name rules

/-- The merged map of two Conflict verdicts (the `for` loop of
`SolverOutput::merge`). -/
def mergedConflicts (c other : List (String × List EntityRule)) :
    List (String × List EntityRule) :=
  other.foldl (fun acc nr => upsertMerge acc nr.1 nr.2) c

/-- `SolverOutput::merge` from src/solver/solver.rs lines 38-64. -/
def SolverOutput.merge : SolverOutput → SolverOutput → SolverOutput
  | .ok, .ok => .ok
  | .ok, .conflict conflicts => .conflict conflicts
  | .conflict conflicts, .ok => .conflict conflicts
  | .conflict conflicts, .conflict other => .conflict (mergedConflicts conflicts other)

/-- Display of `EntityRuleType` (also `AsRef<str>`). -/
def ruleTypeStr : EntityRuleType → String
  | .require => "require"
  | .exclude => "exclude"

/-- Display of `EntityRuleSource`. -/
def ruleSourceStr : EntityRuleSource → String
  | .file p l => p ++ ":" ++ toString l
  | .unknown => "unknown"

/-- Display of `EntityRuleMetadata`. -/
def metadataStr (m : EntityRuleMetadata) : String :=
  (match m.file with | some f => f | none => "") ++
  (match m.line with | some l => ":" ++ toString l | none => "") ++
  (match m.metadata with
   | some kvs => " " ++ kvs.foldl (fun acc kv => acc ++ kv.1 ++ "=" ++ kv.2 ++ ";") ""
   | none => "")

/-- Display of `EntityRule` (src/model/rule.rs lines 364-405); this is
also the tracking-literal name used by the SMT engine. -/
def ruleStr : EntityRule → String
  | .mono _ target ty rs md =>
    "[" ++ ruleTypeStr ty ++ "] " ++ target ++
    (match md with | some m => " " ++ metadataStr m | none => "") ++
    " (" ++ ruleSourceStr rs ++ ")"
  | .multi _ targets ty rs md =>
    "[" ++ ruleTypeStr ty ++ "] " ++ String.intercalate "|" targets ++
    (match md with | some m => " " ++ metadataStr m | none => "") ++
    " (" ++ ruleSourceStr rs ++ ")"

/-- `Display for SolverOutput` (src/solver/solver.rs lines 95-111): the
conflict map is printed in its iteration order, with no sorting. -/
def fmtSolverOutput : SolverOutput → String
  | .ok => "SolverResult::Ok"
  | .conflict conflicts =>
    conflicts.foldl
      (fun acc p =>
        acc ++ "Unscheduable: " ++ p.1 ++ "\n" ++ "  Conflicts: \n" ++
          p.2.foldl (fun a r => a ++ "  " ++ ruleStr r ++ "\n") "")
      ""

/-! ### src/solver/map.rs : `EntityMap` construction -/

/-- The self-conflict test of `preprocessing_self_conflicts` (map.rs
lines 392-397): some exclude rule targets the entity's own name. -/
def selfExcludes (e : Entity) : Bool :=
  e.excludes.any (fun c =>
    match c with
    | .mono _ t _ _ _ => t = e.name
    | .multi _ ts _ _ _ => ts.any (fun r => r = e.name))

/-- The self-require test of `preprocessing_self_conflicts` (map.rs
lines 403-408): a Mono require targets the entity's own name, or a
Multi require has all its targets equal to the entity's own name. -/
def selfRequireFlag (e : Entity) : Bool :=
  e.requires.any (fun r =>
    match r with
    | .mono _ t _ _ _ => t = e.name
    | .multi _ ts _ _ _ => ts.all (fun x => x = e.name))

/-- Per-rule body of `EntityMap::rename_set` (map.rs lines 48-106). -/
def renameRule (frm : String) (tos : List String) : EntityRule → List EntityRule
  | .mono s t ty rs md =>
    if t = frm then tos.map (fun n => .mono s n ty rs md)
    else [.mono s t ty rs md]
  | .multi s ts ty rs md =>
    [.multi s (ts.flatMap (fun r => if r = frm then tos else [r])) ty rs md]

/-- `EntityMap::rename_set`. -/
def rename_set (set : List EntityRule) (frm : String) (tos : List String) : List EntityRule :=
  set.flatMap (renameRule frm tos)

/-- Per-rule body of `EntityMap::split_require_rule` (map.rs lines
111-196); `mapping` is the `name_mapping` lookup. -/
def splitRequireRule (mapping : String → Option (String × String)) :
    EntityRule → List EntityRule
  | .mono s t ty rs md =>
    match mapping t with
    | some (e1, e2) => [.multi s [e1, e2] ty rs md]
    | none => [.mono s t ty rs md]
  | .multi s ts ty rs md =>
    if ts.any (fun r => (mapping r).isSome) then
      [.multi s
        (ts.flatMap (fun r =>
          match mapping r with
          | some (e1, e2) => [e1, e2]
          | none => [r])) ty rs md]
    else [.multi s ts ty rs md]

/-- `EntityMap::split_require_rule` over a rule set. -/
def split_require_rules (rules : List EntityRule)
    (mapping : String → Option (String × String)) : List EntityRule :=
  rules.flatMap (splitRequireRule mapping)

/-- Per-rule body of `EntityMap::split_exclude_rules` (map.rs lines
198-301). -/
def splitExcludeRule (mapping : String → Option (String × String)) :
    EntityRule → List EntityRule
  | .mono s t ty rs md =>
    match mapping t with
    | some (e1, e2) => [.mono s e1 ty rs md, .mono s e2 ty rs md]
    | none => [.mono s t ty rs md]
  | .multi s ts ty rs md =>
    if ts.any (fun r => (mapping r).isSome) then
      [.multi s (ts.map (fun r => match mapping r with | some (e1, _) => e1 | none => r)) ty rs md,
       .multi s (ts.map (fun r => match mapping r with | some (_, e2) => e2 | none => r)) ty rs md]
    else [.multi s ts ty rs md]

/-- `EntityMap::split_exclude_rules` over a rule set. -/
def split_exclude_rules (rules : List EntityRule)
    (mapping : String → Option (String × String)) : List EntityRule :=
  rules.flatMap (splitExcludeRule mapping)

/-- Per-rule body of `EntityMap::force_split_rule` (map.rs lines
303-381). -/
def forceSplitRule (frm : String) (tos : List String) : EntityRule → List EntityRule
  | .mono s t ty rs md =>
    if t = frm then tos.map (fun e => .mono s e ty rs md)
    else [.mono s t ty rs md]
  | .multi s ts ty rs md =>
    if ts.any (fun r => r = frm) then
      tos.map (fun e => .multi s (ts.map (fun r => if r = frm then e else r)) ty rs md)
    else [.multi s ts ty rs md]

/-- `EntityMap::force_split_rule` over a rule set. -/
def force_split_rules (rules : List EntityRule) (frm : String) (tos : List String) :
    List EntityRule :=
  rules.flatMap (forceSplitRule frm tos)

/-- The final `name_mapping` of `preprocessing_self_conflicts`: every
self-excluding entity's name maps to its `_1` / `_2` sibling names. -/
def splitMapping (es : List Entity) (n : String) : Option (String × String) :=
  if es.any (fun e => e.name = n && selfExcludes e) then some (n ++ "_1", n ++ "_2")
  else none

/-- First pass of `preprocessing_self_conflicts` on one entity
(map.rs lines 389-455): a self-excluding entity is split into two
sibling entities, with requires force-split to both sibling names and
excludes renamed to the respectively other sibling. -/
def phase1Entity (e : Entity) : List Entity :=
  if !selfExcludes e then [e]
  else
    let e1n := e.name ++ "_1"
    let e2n := e.name ++ "_2"
    [Entity.mk e1n (force_split_rules e.requires e.name [e1n, e2n])
       (rename_set e.excludes e.name [e2n]) e.source e.priority,
     Entity.mk e2n (force_split_rules e.requires e.name [e1n, e2n])
       (rename_set e.excludes e.name [e1n]) e.source e.priority]

/-- `EntityMap::preprocessing_self_conflicts` (map.rs lines 383-469):
the two passes, plus the recorded self-conflict names — note the code
inserts into `self_conflicts` only when the split entity additionally
has `self_require_flag` set. -/
def preprocessing_self_conflicts (es : List Entity) : List Entity × List String :=
  let mapping := splitMapping es
  let entities1 := es.flatMap phase1Entity
  let entities2 := entities1.map (fun e =>
    Entity.mk e.name (split_require_rules e.requires mapping)
      (split_exclude_rules e.excludes mapping) e.source e.priority)
  (entities2, (es.filter (fun e => selfExcludes e && selfRequireFlag e)).map (fun e => e.name))

/-- `EntityMap::collect_entity_names` (map.rs lines 471-504): the name
universe, i.e. every entity name plus every require/exclude target. -/
def collect_entity_names (es : List Entity) : List String :=
  es.flatMap (fun e =>
    e.name ::
      (e.requires.flatMap (fun r => r.targets) ++ e.excludes.flatMap (fun r => r.targets)))

/-- The duplicate names computed by `EntityMap::check_duplicate_names`. -/
def duplicateNames (es : List Entity) : List String :=
  ((es.map (fun e => e.name)).filter
    (fun n => 1 < (es.map (fun e => e.name)).count n)).dedup

/-- `EntityMap` from src/solver/map.rs; both `HashSet`s are modelled as
lists (membership is what matters). -/
structure EntityMap where
  entities : List Entity
  names : List String
  self_conflicts : List String
deriving DecidableEq

deriving instance DecidableEq for Except

/-- `EntityMap::build` (map.rs lines 506-518). -/
def EntityMap.build (es : List Entity) : Except (List String) EntityMap :=
  let dups := duplicateNames es
  if dups.isEmpty then
    let p := preprocessing_self_conflicts es
    .ok { entities := p.1, names := collect_entity_names p.1, self_conflicts := p.2 }
  else .error dups

/-! ### src/solver/unknown.rs : the Unknown engine -/

/-- `UnknownSolver::collect_definitions`: the names of defined entities
(not the name universe). -/
def collect_definitions (m : EntityMap) : List String :=
  m.entities.map (fun e => e.name)

/-- The per-rule filter of `UnknownSolver::solve` (unknown.rs lines
36-41): a Mono rule whose target is undefined, or a Multi rule with at
least one undefined target. -/
def unknownRuleFlag (defs : List String) (r : EntityRule) : Bool :=
  match r with
  | .mono _ t _ _ _ => !defs.contains t
  | .multi _ ts _ _ _ => ts.any (fun t => !defs.contains t)

/-- The conflict map assembled by `UnknownSolver::solve` (unknown.rs
lines 29-51): each entity paired with its rules flagged by
`unknownRuleFlag`, kept only when that list is non-empty. -/
def unknownConflicts (m : EntityMap) : List (String × List EntityRule) :=
  m.entities.filterMap (fun e =>
    if (e.rules.filter (unknownRuleFlag (collect_definitions m))).isEmpty then none
    else some (e.name, e.rules.filter (unknownRuleFlag (collect_definitions m))))

/-- `UnknownSolver::solve` (unknown.rs lines 26-58). -/
def UnknownSolver.solve (m : EntityMap) : SolverOutput :=
  if (unknownConflicts m).isEmpty then .ok else .conflict (unknownConflicts m)

/-! ### src/solver/ring.rs : the Ring engine

`RingSolver::build_graph` materialises a directed graph whose nodes are
names and whose edges are induced by require rules (one edge per Mono
target, one per Multi target).  The cycle enumeration `graph.cycles()`
comes from the external `graph_cycles` crate; the solver below is
therefore parametrised by the returned list of cycles, each given as
its node list (the code immediately converts each to a `HashSet`). -/

/-- The labelled require-edges of `RingSolver::build_graph`. -/
def requireEdges (es : List Entity) : List (String × String × EntityRule) :=
  es.flatMap (fun e => e.requires.flatMap (fun r => r.targets.map (fun t => (e.name, t, r))))

/-- The within-cycle edge occurrences walked by one cycle of
`RingSolver::solve`'s first pass (ring.rs lines 80-127): cycles of one
node are skipped; an edge is walked when its source node is in the
cycle, its target is in the cycle and differs from the source, the
source node name equals the rule's source field, and
`is_in_target` holds of the target name. -/
def cycleHits (edges : List (String × String × EntityRule)) (c : List String) :
    List (String × String × EntityRule) :=
  if c.length = 1 then []
  else
    c.flatMap (fun u =>
      edges.filter (fun e =>
        e.1 == u && !(e.2.1 == u) && c.contains e.2.1 && u == e.2.2.src &&
          e.2.2.is_in_target e.2.1))

/-- All edge occurrences walked across the cycle list, in walk order. -/
def ringHits (edges : List (String × String × EntityRule)) (cycles : List (List String)) :
    List (String × String × EntityRule) :=
  cycles.flatMap (cycleHits edges)

/-- State of the first pass: the pushed conflict entries (source name,
within-cycle target, rule) and the per-rule `rule_ways` target sets. -/
structure RingState where
  conflicts : List (String × String × EntityRule)
  ways : List (EntityRule × List String)
deriving DecidableEq

/-- `rule_ways` lookup (an absent rule has the empty set). -/
def waysGet (ways : List (EntityRule × List String)) (r : EntityRule) : List String :=
  match ways with
  | [] => []
  | p :: t => if p.1 = r then p.2 else waysGet t r

/-- `rule_ways.entry(rule).or_default(); set.insert(target)`. -/
def waysInsert (ways : List (EntityRule × List String)) (r : EntityRule) (v : String) :
    List (EntityRule × List String) :=
  match ways with
  | [] => [(r, [v])]
  | p :: t =>
    if p.1 = r then (p.1, if p.2.contains v then p.2 else p.2 ++ [v]) :: t
    else p :: waysInsert t r v

/-- One walked edge of the first pass (ring.rs lines 106-126): a Multi
rule (more than one target) accumulates the within-cycle target into
`rule_ways` and is pushed once the accumulated count reaches the
target count; a Mono rule is pushed immediately. -/
def ringStep (st : RingState) (h : String × String × EntityRule) : RingState :=
  let r := h.2.2
  let tlen := r.targets.length
  if 1 < tlen then
    let ways' := waysInsert st.ways r h.2.1
    if tlen ≤ (waysGet ways' r).length then
      { conflicts := st.conflicts ++ [h], ways := ways' }
    else
      { conflicts := st.conflicts, ways := ways' }
  else
    { conflicts := st.conflicts ++ [h], ways := st.ways }

/-- The whole first pass of `RingSolver::solve`. -/
def ringFirstPass (edges : List (String × String × EntityRule))
    (cycles : List (List String)) : RingState :=
  (ringHits edges cycles).foldl ringStep ⟨[], []⟩

/-- The post-filter of `RingSolver::solve` (ring.rs lines 130-156):
keep exactly the conflict entries whose target name is itself the
source of some conflict entry (entries whose per-name list becomes
empty disappear from the map). -/
def ringFinal (st : RingState) : List (String × String × EntityRule) :=
  let unsat_depends := st.conflicts.map (fun h => h.2.1)
  let real := unsat_depends.filter (fun n => st.conflicts.any (fun h => h.1 = n))
  st.conflicts.filter (fun h => real.contains h.2.1)

/-- Group the conflict entries into the per-name conflict map. -/
def groupByName (l : List (String × String × EntityRule)) :
    List (String × List EntityRule) :=
  ((l.map (fun h => h.1)).dedup).map
    (fun n => (n, (l.filter (fun h => h.1 = n)).map (fun h => h.2.2)))

/-- `RingSolver::solve` (ring.rs lines 64-163), parametrised by the
cycle list returned by the external `graph.cycles()`. -/
def RingSolver.solve (es : List Entity) (cycles : List (List String)) : SolverOutput :=
  if cycles.isEmpty then .ok
  else
    let final := ringFinal (ringFirstPass (requireEdges es) cycles)
    if final.isEmpty then .ok else .conflict (groupByName final)

/-! ### src/solver/z3.rs : the SMT engine

The z3 backend is external; we model exactly what the claims are
about: the solver's assertion stack (`push` / `assert` / `pop`) and the
probe control flow of `Z3Solver::solve`, with the backend's `check`
outcome supplied by an oracle (a function of the asserted stack). -/

/-- One asserted probe assumption: a variable or its negation. -/
inductive ZAssert where
  | pos (v : String) : ZAssert
  | neg (v : String) : ZAssert
deriving DecidableEq

/-- The assertion stack: a list of frames, innermost first. -/
abbrev ZStack := List (List ZAssert)

/-- `solver.push()`. -/
def zpush (st : ZStack) : ZStack := [] :: st

/-- `solver.assert(a)` into the innermost frame. -/
def zassert (a : ZAssert) : ZStack → ZStack
  | [] => [[a]]
  | f :: t => (a :: f) :: t

/-- `solver.pop(1)`. -/
def zpop (st : ZStack) : ZStack := st.tail

/-- Outcome of `solver.check()` (`Unknown` is `unreachable!` in the
code); an `unsat` outcome carries the unsat core already mapped back to
rules by `check_and_get`. -/
inductive ZCheck where
  | sat : ZCheck
  | unsat (core : List EntityRule) : ZCheck

/-- `Env` from src/model/env.rs: a name plus label set. -/
structure Env where
  name : String
  labels : List String
deriving DecidableEq

/-- The names holding a boolean variable after constraint encoding
(z3.rs lines 157-197): every name passed to `get_or_create_bool`, i.e.
each non-dummy entity's name and its rules' targets. -/
def z3VarNames (es : List Entity) : List String :=
  (es.filter (fun e => !e.is_dummy)).flatMap (fun e =>
    e.requires.flatMap (fun r => e.name :: r.targets) ++
      e.excludes.flatMap (fun r => e.name :: r.targets))

/-- The per-environment assertions (z3.rs lines 230-259): assert every
label variable (both siblings when the label is in the self-conflict
set and both sibling variables exist), then assert the negation of
every universe name that is neither a label nor the probed name.  (The
code unwraps the variable of each negated name; the model asserts the
same literal.) -/
def envAssertSteps (vars self_conflicts names : List String) (probe : String)
    (env : Env) (st : ZStack) : ZStack :=
  let st1 := env.labels.foldl
    (fun s label =>
      if self_conflicts.contains label then
        if vars.contains (label ++ "_1") && vars.contains (label ++ "_2") then
          zassert (.pos (label ++ "_2")) (zassert (.pos (label ++ "_1")) s)
        else s
      else if vars.contains label then zassert (.pos label) s
      else s)
    st
  names.foldl
    (fun s label =>
      if env.labels.contains label || probe == label then s
      else zassert (.neg label) s)
    st1

/-- Result of the per-name probe closure: either the closure executed
`return None` (carrying the stack exactly as it was at that point), or
it fell through with collected rules. -/
inductive ProbeResult where
  | earlyNone (st : ZStack) : ProbeResult
  | found (rules : List EntityRule) (st : ZStack) : ProbeResult

/-- The per-environment loop of `Z3Solver::solve` (z3.rs lines
225-275): push a scope, assert the environment, check; a Sat outcome
executes `return None` on the spot (no pops), an Unsat outcome extends
the result set and pops the environment scope; after the loop an empty
result set also executes `return None` (skipping the outer pop). -/
def envLoop (check : ZStack → ZCheck) (vars self_conflicts names : List String)
    (probe : String) (envs : List Env) (results : List EntityRule) (st : ZStack) :
    ProbeResult :=
  match envs with
  | [] => if results.isEmpty then .earlyNone st else .found results st
  | env :: rest =>
    let st2 := envAssertSteps vars self_conflicts names probe env (zpush st)
    match check st2 with
    | .sat => .earlyNone st2
    | .unsat core =>
      envLoop check vars self_conflicts names probe rest ((results ++ core).dedup) (zpop st2)

/-- The per-name probe of `Z3Solver::solve` (z3.rs lines 199-285):
skip names without a variable; otherwise push a scope, assert the
probed variable, then either check directly (no environments) or run
the environment loop.  Returns the optional conflict rules and the
resulting assertion stack. -/
def probeName (check : ZStack → ZCheck) (vars self_conflicts names : List String)
    (envs : Option (List Env)) (st : ZStack) (name : String) :
    Option (List EntityRule) × ZStack :=
  if !vars.contains name then (none, st)
  else
    let st1 := zassert (.pos name) (zpush st)
    match envs with
    | none =>
      match check st1 with
      | .sat => (none, zpop st1)
      | .unsat core => (some core, zpop st1)
    | some envList =>
      match envLoop check vars self_conflicts names name envList [] st1 with
      | .earlyNone stx => (none, stx)
      | .found results stx => (some results, zpop stx)

/-- The whole probe sweep over the name universe, threading the
assertion stack and collecting the pre-merge conflict map. -/
def z3ProbeAll (check : ZStack → ZCheck) (vars self_conflicts names : List String)
    (envs : Option (List Env)) : List (String × List EntityRule) × ZStack :=
  names.foldl
    (fun acc name =>
      match probeName check vars self_conflicts names envs acc.2 name with
      | (some rules, st2) => (acc.1 ++ [(name, rules)], st2)
      | (none, st2) => (acc.1, st2))
    ([], [])

/-- The key rewrite of `Z3Solver::solve`'s post-merge (z3.rs lines
288-293): any name containing an underscore is truncated to the part
before the first underscore (`name.split("_").next().unwrap()`,
modelled on the character sequence). -/
def truncKey (n : String) : String :=
  if n.data.contains '_' then String.mk (n.data.takeWhile (fun c => !(c == '_'))) else n

/-- `HashMap` insert-or-merge used by the post-merge fold (z3.rs lines
297-313); the merged list is the deduplicated concatenation (the code
goes through a `HashSet`). -/
def hashUpsert (acc : List (String × List EntityRule)) (name : String)
    (rules : List EntityRule) : List (String × List EntityRule) :=
  match acc with
  | [] => [(name, rules)]
  | p :: t =>
    if p.1 = name then (p.1, (p.2 ++ rules).dedup) :: t
    else p :: hashUpsert t name rules

/-- The post-merge stage of `Z3Solver::solve` (z3.rs lines 286-313):
rewrite each key with `truncKey`, then fold the entries into a fresh
map, merging lists under colliding keys. -/
def z3PostMerge (ret : List (String × List EntityRule)) : List (String × List EntityRule) :=
  (ret.map (fun nr => (truncKey nr.1, nr.2))).foldl
    (fun acc nr => hashUpsert acc nr.1 nr.2) []

/-- `Z3Solver::solve` (z3.rs lines 154-319), parametrised by the check
oracle: probe every universe name, post-merge the keys, and return Ok
exactly when the final map is empty. -/
def Z3Solver.solve (check : ZStack → ZCheck) (m : EntityMap)
    (envs : Option (List Env)) : SolverOutput :=
  let vars := z3VarNames m.entities
  let ret := (z3ProbeAll check vars m.self_conflicts m.names envs).1
  let ret2 := z3PostMerge ret
  if ret2.isEmpty then .ok else .conflict ret2

/-! ### src/plugin/k8s/cli.rs : the All recommendation policy -/

/-- The rule-occurrence counting fold of `recommend_policy_all`
(cli.rs lines 578-589). -/
def countInsert (acc : List (EntityRule × Nat)) (r : EntityRule) : List (EntityRule × Nat) :=
  match acc with
  | [] => [(r, 1)]
  | p :: t => if p.1 = r then (p.1, p.2 + 1) :: t else p :: countInsert t r

/-- One step of the greedy fold of `recommend_policy_all` (cli.rs
lines 595-610): append the rule while the accumulated relation count
is below `k`, then add the rule's relation count (1 for Mono, target
count for Multi). -/
def greedyStep (k : Nat) (p : List EntityRule × Nat) (e : EntityRule × Nat) :
    List EntityRule × Nat :=
  ((if p.2 < k then p.1 ++ [e.1] else p.1),
   p.2 + (match e.1 with
          | .mono _ _ _ _ _ => 1
          | .multi _ ts _ _ _ => ts.length))

/-- `recommend_policy_all` (cli.rs lines 567-615): collect the distinct
rule lists, count rule occurrences across them, sort descending by
count, then greedily append rules while the accumulated relation count
is below the number of distinct rule lists. -/
def recommend_policy_all (conflicts : List (String × List EntityRule)) : List EntityRule :=
  let unique_rule_set := (conflicts.map (fun p => p.2)).dedup
  let rule_count := unique_rule_set.foldl (fun acc l => l.foldl countInsert acc) []
  ((rule_count.insertionSort (fun a b => b.2 ≤ a.2)).foldl
    (greedyStep unique_rule_set.length) ([], 0)).1

/-! ### Concrete instances used in witnesses and counterexamples -/

/-- A Mono require rule with no source location or metadata. -/
def mkReq (s t : String) : EntityRule := .mono s t .require .unknown none

/-- A Mono exclude rule with no source location or metadata. -/
def mkExc (s t : String) : EntityRule := .mono s t .exclude .unknown none

/-- A Multi require rule with no source location or metadata. -/
def mkReqM (s : String) (ts : List String) : EntityRule := .multi s ts .require .unknown none

/-- A Multi exclude rule with no source location or metadata. -/
def mkExcM (s : String) (ts : List String) : EntityRule := .multi s ts .exclude .unknown none

/-- An entity with the given rule lists, unknown source, default priority. -/
def mkEnt (n : String) (rq ex : List EntityRule) : Entity :=
  Entity.mk n rq ex .unknown .default

/-- The `EntityMap` built from the single entity `A` requiring the
undefined name `B`. -/
def c2Map : EntityMap :=
  EntityMap.mk [mkEnt "A" [mkReq "A" "B"] []] ["A", "B"] []

/-- The `EntityMap` built from the single self-excluding entity `X`. -/
def c3Map : EntityMap :=
  EntityMap.mk
    [Entity.mk "X_1" [] [mkExc "X" "X_2"] .unknown .default,
     Entity.mk "X_2" [] [mkExc "X" "X_1"] .unknown .default]
    ["X_1", "X_2", "X_2", "X_1"] []

/-- A self-excluding entity `X` next to a self-requiring entity `Y`. -/
def c4es : List Entity :=
  [mkEnt "X" [] [mkExc "X" "X"], mkEnt "Y" [mkReq "Y" "Y"] []]

/-- Two entities requiring each other (a 2-cycle). -/
def c5wEs : List Entity :=
  [mkEnt "a" [mkReq "a" "b"] [], mkEnt "b" [mkReq "b" "a"] []]

/-- A conflict map with three distinct singleton rule lists, each
holding a distinct two-target Multi require rule. -/
def c7cmap : List (String × List EntityRule) :=
  [("a", [mkReqM "a" ["p", "q"]]), ("b", [mkReqM "b" ["r", "s"]]),
   ("c", [mkReqM "c" ["t", "u"]])]

/-- The `EntityMap` built from `c4es`. -/
def c4Map : EntityMap :=
  EntityMap.mk
    [Entity.mk "X_1" [] [mkExc "X" "X_2"] .unknown .default,
     Entity.mk "X_2" [] [mkExc "X" "X_1"] .unknown .default,
     Entity.mk "Y" [mkReq "Y" "Y"] [] .unknown .default]
    ["X_1", "X_2", "X_2", "X_1", "Y", "Y"] []

/-! ### Helper lemmas -/

theorem alookup_eq_none {β : Type} {n : String} {l : List (String × β)}
    (h : n ∉ l.map Prod.fst) : alookup n l = none := by
  induction l with
  | nil => rfl
  | cons p t ih =>
    simp only [List.map_cons, List.mem_cons] at h
    push_neg at h
    rw [alookup, if_neg (fun he => h.1 he.symm)]
    exact ih h.2

theorem alookup_hashUpsert_same (acc : List (String × List EntityRule)) (n : String)
    (rs : List EntityRule) :
    alookup n (hashUpsert acc n rs) =
      some (match alookup n acc with
            | some l => (l ++ rs).dedup
            | none => rs) := by
  induction acc with
  | nil => simp [hashUpsert, alookup]
  | cons p t ih =>
    by_cases hp : p.1 = n
    · simp [hashUpsert, alookup, hp]
    · simp only [hashUpsert, alookup, if_neg hp]
      exact ih

theorem alookup_hashUpsert_other (acc : List (String × List EntityRule)) (n m : String)
    (rs : List EntityRule) (hnm : m ≠ n) :
    alookup m (hashUpsert acc n rs) = alookup m acc := by
  induction acc with
  | nil =>
    simp only [hashUpsert, alookup]
    rw [if_neg (fun h => hnm h.symm)]
  | cons p t ih =>
    by_cases hp : p.1 = n
    · have hpm : p.1 ≠ m := fun h => hnm (hp.symm.trans h).symm
      simp only [hashUpsert, if_pos hp, alookup, if_neg hpm]
    · simp only [hashUpsert, if_neg hp, alookup]
      by_cases hm : p.1 = m
      · simp [hm]
      · simp [hm, ih]

theorem mem_alookup_hashFold (pairs : List (String × List EntityRule))
    (acc : List (String × List EntityRule)) (k : String) (r : EntityRule) :
    (∃ l, alookup k (pairs.foldl (fun a nr => hashUpsert a nr.1 nr.2) acc) = some l ∧ r ∈ l) ↔
      ((∃ l, alookup k acc = some l ∧ r ∈ l) ∨ ∃ p ∈ pairs, p.1 = k ∧ r ∈ p.2) := by
  induction pairs generalizing acc with
  | nil => simp
  | cons q qs ih =>
    simp only [List.foldl_cons, List.mem_cons]
    rw [ih]
    constructor
    · rintro (⟨l, hl, hr⟩ | ⟨p, hp, hk, hr⟩)
      · by_cases hq : q.1 = k
        · subst hq
          rw [alookup_hashUpsert_same] at hl
          cases hacc : alookup q.1 acc with
          | some l0 =>
            rw [hacc] at hl
            obtain rfl : (l0 ++ q.2).dedup = l := by injection hl
            simp only [List.mem_dedup, List.mem_append] at hr
            rcases hr with hr | hr
            · exact Or.inl ⟨l0, rfl, hr⟩
            · exact Or.inr ⟨q, Or.inl rfl, rfl, hr⟩
          | none =>
            rw [hacc] at hl
            obtain rfl : q.2 = l := by injection hl
            exact Or.inr ⟨q, Or.inl rfl, rfl, hr⟩
        · rw [alookup_hashUpsert_other _ _ _ _ (fun h => hq h.symm)] at hl
          exact Or.inl ⟨l, hl, hr⟩
      · exact Or.inr ⟨p, Or.inr hp, hk, hr⟩
    · rintro (⟨l, hl, hr⟩ | ⟨p, hp | hp, hk, hr⟩)
      · by_cases hq : q.1 = k
        · subst hq
          refine Or.inl ⟨_, alookup_hashUpsert_same acc q.1 q.2, ?_⟩
          rw [hl]
          simp [List.mem_dedup, hr]
        · rw [← alookup_hashUpsert_other acc q.1 k q.2 (fun h => hq h.symm)] at hl
          exact Or.inl ⟨l, hl, hr⟩
      · subst hp
        subst hk
        refine Or.inl ⟨_, alookup_hashUpsert_same acc p.1 p.2, ?_⟩
        cases hacc : alookup p.1 acc <;> simp [List.mem_dedup, hr]
      · exact Or.inr ⟨p, hp, hk, hr⟩

/-! ### Claim theorems -/

/-- C10: `EntityRule::is_in_target` returns `true` for every Mono rule
and every queried string (the Mono arm compares the rule's target with
itself), while for a Multi rule it tests membership of the queried
string in the target set. -/
theorem c10_is_in_target_mono_ignores_argument :
    (∀ (s t : String) (ty : EntityRuleType) (rs : EntityRuleSource)
        (md : Option EntityRuleMetadata) (x : String),
      (EntityRule.mono s t ty rs md).is_in_target x = true) ∧
    (∀ (s : String) (ts : List String) (ty : EntityRuleType) (rs : EntityRuleSource)
        (md : Option EntityRuleMetadata) (x : String),
      (EntityRule.multi s ts ty rs md).is_in_target x = ts.contains x) := by
  constructor
  · intro s t ty rs md x
    simp [EntityRule.is_in_target]
  · intro s ts ty rs md x
    rfl

/-- C9 (code bug): the displayed Conflict text of `SolverOutput` is
produced in the conflict map's iteration order with no sorting, so two
iteration orders of the same map (Rust `HashMap` iteration order is
unspecified across runs) yield different bytes: the claimed
sorted-by-name, byte-identical display does not hold of the code. -/
theorem c9_fmt_depends_on_iteration_order :
    fmtSolverOutput (.conflict [("b", []), ("a", [])]) ≠
      fmtSolverOutput (.conflict [("a", []), ("b", [])]) := by
  decide

/-- C1 (code bug): in environment mode, when the backend reports Sat
for the probed name, the probe closure returns without popping either
the per-environment scope or the per-entity scope, so the probed
variable and the environment assertions stay asserted (final stack
`[[pos b], [pos a]]`); the same probe without environments retracts
everything (final stack `[]`). -/
theorem c1_env_sat_scope_leak :
    probeName (fun _ => ZCheck.sat) (z3VarNames [mkEnt "a" [] [mkExc "a" "b"]]) []
        ["a", "b"] (some [Env.mk "e" ["b"]]) [] "a" =
      (none, [[ZAssert.pos "b"], [ZAssert.pos "a"]]) ∧
    probeName (fun _ => ZCheck.sat) (z3VarNames [mkEnt "a" [] [mkExc "a" "b"]]) []
        ["a", "b"] none [] "a" = (none, []) := by
  decide

/-- C2 (counterexample): for the map built from `A requires B` (with
`B` undefined), every target of every rule is in the name universe
`names` — the universe contains every target by construction — yet
`UnknownSolver::solve` reports a conflict; so "Conflict exactly when a
target is absent from the name universe" is false on the code. -/
theorem c2_counterexample :
    EntityMap.build [mkEnt "A" [mkReq "A" "B"] []] = .ok c2Map ∧
    UnknownSolver.solve c2Map ≠ .ok ∧
    (∀ e ∈ c2Map.entities, ∀ r ∈ e.rules, ∀ t ∈ r.targets, t ∈ c2Map.names) := by
  decide

/-- C2 (amended): `UnknownSolver::solve` flags a rule exactly when some
target is absent from the set of *defined entity names*
(`collect_definitions`), not from the name universe: it returns Ok iff
no entity has such a rule, and the Conflict entries are exactly the
entities owning flagged rules, paired with their flagged rules. -/
theorem c2_unknown_solver_characterisation (m : EntityMap) :
    (∀ (defs : List String) (r : EntityRule),
      unknownRuleFlag defs r = true ↔ ∃ t ∈ r.targets, t ∉ defs) ∧
    (UnknownSolver.solve m = .ok ↔
      ∀ e ∈ m.entities, ∀ r ∈ e.rules, unknownRuleFlag (collect_definitions m) r = false) ∧
    (∀ cs, UnknownSolver.solve m = .conflict cs →
      ∀ n rs, (n, rs) ∈ cs ↔
        ∃ e ∈ m.entities, e.name = n ∧
          rs = e.rules.filter (unknownRuleFlag (collect_definitions m)) ∧ rs ≠ []) := by
  refine ⟨?_, ?_, ?_⟩
  · intro defs r
    cases r with
    | mono s t ty rs md =>
      simp [unknownRuleFlag, EntityRule.targets]
    | multi s ts ty rs md =>
      simp [unknownRuleFlag, EntityRule.targets]
  · have hconf : unknownConflicts m = [] ↔
        ∀ e ∈ m.entities, ∀ r ∈ e.rules,
          unknownRuleFlag (collect_definitions m) r = false := by
      rw [unknownConflicts, List.filterMap_eq_nil_iff]
      constructor
      · intro hall e he r hr
        have := hall e he
        rw [ite_eq_left_iff] at this
        by_contra hflag
        rw [Bool.not_eq_false] at hflag
        have hne : ¬(e.rules.filter (unknownRuleFlag (collect_definitions m))).isEmpty = true := by
          rw [List.isEmpty_iff, List.filter_eq_nil_iff]
          intro hnone
          exact (hnone r hr) hflag
        exact absurd (this hne) (by simp)
      · intro hall e he
        have : e.rules.filter (unknownRuleFlag (collect_definitions m)) = [] :=
          List.filter_eq_nil_iff.mpr (fun r hr => by simp [hall e he r hr])
        simp [this]
    rw [UnknownSolver.solve]
    split
    · rename_i hempty
      rw [List.isEmpty_iff] at hempty
      simp only [true_iff]
      exact hconf.mp hempty
    · rename_i hne
      rw [List.isEmpty_iff] at hne
      simp only [reduceCtorEq, false_iff]
      intro hall
      exact hne (hconf.mpr hall)
  · intro cs hcs n rs
    rw [UnknownSolver.solve] at hcs
    split at hcs
    · exact absurd hcs (by simp)
    · obtain rfl : unknownConflicts m = cs := by injection hcs
      rw [unknownConflicts, List.mem_filterMap]
      constructor
      · rintro ⟨e, he, hfe⟩
        rw [ite_eq_iff] at hfe
        rcases hfe with ⟨_, hfe⟩ | ⟨hfilter, hfe⟩
        · exact absurd hfe (by simp)
        · obtain ⟨rfl, rfl⟩ : e.name = n ∧
              e.rules.filter (unknownRuleFlag (collect_definitions m)) = rs := by
            injection hfe with h1
            exact ⟨congrArg Prod.fst h1, congrArg Prod.snd h1⟩
          refine ⟨e, he, rfl, rfl, ?_⟩
          rw [List.isEmpty_iff] at hfilter
          exact hfilter
      · rintro ⟨e, he, rfl, rfl, hne⟩
        refine ⟨e, he, ?_⟩
        rw [if_neg (by rw [List.isEmpty_iff]; exact hne)]

/-- C6 (counterexample): a key naming an entity that was never split by
preprocessing but containing an underscore — here `my_app`, probed from
a map with an empty self-conflict set — is *not* returned unchanged:
the post-merge of `Z3Solver::solve` truncates it to `my`. -/
theorem c6_counterexample :
    z3PostMerge [("my_app", [mkExc "my_app" "w"])] = [("my", [mkExc "my_app" "w"])] ∧
    truncKey "my_app" ≠ "my_app" := by
  decide

/-- C6 (amended): in the post-merge of `Z3Solver::solve`, a key is
rewritten exactly when it contains an underscore — whether or not it is
a split sibling — and is truncated to the part before the first
underscore; entries whose truncated keys coincide are merged (a rule is
bound under `k` in the result iff some input entry has truncated key
`k` and contains it); keys without underscores are unchanged. -/
theorem c6_postmerge_truncates_underscore_keys :
    (∀ n : String, n.data.contains '_' = false → truncKey n = n) ∧
    (∀ (ret : List (String × List EntityRule)) (k : String) (r : EntityRule),
      (∃ l, alookup k (z3PostMerge ret) = some l ∧ r ∈ l) ↔
        ∃ p ∈ ret, truncKey p.1 = k ∧ r ∈ p.2) := by
  constructor
  · intro n h
    rw [truncKey, if_neg (by rw [h]; exact Bool.false_ne_true)]
  · intro ret k r
    rw [z3PostMerge, mem_alookup_hashFold]
    constructor
    · rintro (⟨l, hl, _⟩ | ⟨p, hp, hk, hr⟩)
      · simp [alookup] at hl
      · rcases List.mem_map.mp hp with ⟨q, hq, rfl⟩
        exact ⟨q, hq, hk, hr⟩
    · rintro ⟨p, hp, hk, hr⟩
      exact Or.inr ⟨(truncKey p.1, p.2), List.mem_map.mpr ⟨p, hp, rfl⟩, hk, hr⟩

theorem rustDedup_sublist {α : Type} [DecidableEq α] :
    ∀ l : List α, List.Sublist (rustDedup l) l
  | [] => by simp [rustDedup]
  | [a] => by simp [rustDedup]
  | a :: b :: t => by
    rw [rustDedup]
    split
    · exact (rustDedup_sublist (b :: t)).trans (List.sublist_cons_self a (b :: t))
    · exact (rustDedup_sublist (b :: t)).cons₂ a

theorem mem_rustDedup {α : Type} [DecidableEq α] {x : α} :
    ∀ l : List α, x ∈ rustDedup l ↔ x ∈ l
  | [] => by simp [rustDedup]
  | [a] => by simp [rustDedup]
  | a :: b :: t => by
    rw [rustDedup]
    split
    · rename_i hab
      rw [mem_rustDedup (b :: t)]
      subst hab
      simp only [List.mem_cons]
      tauto
    · rename_i hab
      simp [List.mem_cons, mem_rustDedup (b :: t)]

theorem rustDedup_pairwise {α : Type} [DecidableEq α] {R : α → α → Prop}
    {l : List α} (h : l.Pairwise R) : (rustDedup l).Pairwise R :=
  h.sublist (rustDedup_sublist l)

theorem rustDedup_nodup {α : Type} [DecidableEq α] [LinearOrder α] :
    ∀ l : List α, l.Pairwise (· ≤ ·) → (rustDedup l).Nodup
  | [] => fun _ => by simp [rustDedup]
  | [a] => fun _ => by simp [rustDedup]
  | a :: b :: t => fun h => by
    rw [rustDedup]
    rcases List.pairwise_cons.mp h with ⟨ha, h'⟩
    split
    · exact rustDedup_nodup (b :: t) h'
    · rename_i hab
      refine List.nodup_cons.mpr ⟨?_, rustDedup_nodup (b :: t) h'⟩
      intro hmem
      have hm : a ∈ b :: t := (mem_rustDedup (b :: t)).mp hmem
      rcases List.mem_cons.mp hm with rfl | hm
      · exact hab rfl
      · rcases List.pairwise_cons.mp h' with ⟨hb, _⟩
        exact hab (le_antisymm (ha b (List.mem_cons_self b t)) (hb a hm))

theorem rustSort_pairwise (l : List EntityRule) : (rustSort l).Pairwise (· ≤ ·) :=
  List.sorted_insertionSort _ l

theorem mem_rustSort {x : EntityRule} {l : List EntityRule} : x ∈ rustSort l ↔ x ∈ l :=
  (List.perm_insertionSort _ l).mem_iff

theorem alookup_upsertMerge_same (acc : List (String × List EntityRule)) (n : String)
    (rs : List EntityRule) :
    alookup n (upsertMerge acc n rs) =
      some (match alookup n acc with
            | some l => rustDedup (rustSort (l ++ rs))
            | none => rs) := by
  induction acc with
  | nil => simp [upsertMerge, alookup]
  | cons p t ih =>
    by_cases hp : p.1 = n
    · simp [upsertMerge, alookup, hp]
    · simp only [upsertMerge, alookup, if_neg hp]
      exact ih

theorem alookup_upsertMerge_other (acc : List (String × List EntityRule)) (n m : String)
    (rs : List EntityRule) (hnm : m ≠ n) :
    alookup m (upsertMerge acc n rs) = alookup m acc := by
  induction acc with
  | nil =>
    simp only [upsertMerge, alookup]
    rw [if_neg (fun h => hnm h.symm)]
  | cons p t ih =>
    by_cases hp : p.1 = n
    · have hpm : p.1 ≠ m := fun h => hnm (hp.symm.trans h).symm
      simp only [upsertMerge, if_pos hp, alookup, if_neg hpm]
    · simp only [upsertMerge, if_neg hp, alookup]
      by_cases hm : p.1 = m
      · simp [hm]
      · simp [hm, ih]

theorem alookup_mergedConflicts (c d : List (String × List EntityRule)) (n : String)
    (hd : (d.map Prod.fst).Nodup) :
    alookup n (mergedConflicts c d) =
      match alookup n c, alookup n d with
      | some lc, some ld => some (rustDedup (rustSort (lc ++ ld)))
      | some lc, none => some lc
      | none, some ld => some ld
      | none, none => none := by
  induction d generalizing c with
  | nil =>
    have hnil : mergedConflicts c [] = c := rfl
    rw [hnil]
    cases hc : alookup n c <;> simp [alookup, hc]
  | cons q qs ih =>
    rw [List.map_cons, List.nodup_cons] at hd
    obtain ⟨hq, hd'⟩ := hd
    have hstep : mergedConflicts c (q :: qs) =
        mergedConflicts (upsertMerge c q.1 q.2) qs := by
      rw [mergedConflicts, List.foldl_cons]
      rfl
    rw [hstep, ih _ hd']
    by_cases hn : q.1 = n
    · subst hn
      rw [alookup_upsertMerge_same, alookup_eq_none hq]
      have hqd : alookup q.1 (q :: qs) = some q.2 := by simp [alookup]
      rw [hqd]
      cases alookup q.1 c <;> simp
    · rw [alookup_upsertMerge_other _ _ _ _ (fun h => hn h.symm)]
      have hqd : alookup n (q :: qs) = alookup n qs := by simp [alookup, hn]
      rw [hqd]

/-- C8 (counterexample): merging two Conflict verdicts does *not* bind
every name to the sorted deduplicated union of the operands' lists — a
name present in only one operand keeps that operand's list verbatim
(here `a`'s list stays `[z→b, z→a]`, while the sorted deduplicated
union would be `[z→a, z→b]`). -/
theorem c8_counterexample :
    SolverOutput.merge (.conflict [("a", [mkReq "z" "b", mkReq "z" "a"])])
        (.conflict [("b", [mkExc "q" "w"])]) =
      .conflict [("a", [mkReq "z" "b", mkReq "z" "a"]), ("b", [mkExc "q" "w"])] ∧
    rustDedup (rustSort ([mkReq "z" "b", mkReq "z" "a"] ++ [])) =
      [mkReq "z" "a", mkReq "z" "b"] ∧
    [mkReq "z" "b", mkReq "z" "a"] ≠ [mkReq "z" "a", mkReq "z" "b"] := by
  decide

/-- C8 (amended): `merge(Ok, v) = v` and `merge(v, Ok) = v` hold for
every verdict; merging two Conflicts binds a name occurring in *both*
operands to the sorted (by the derived total order) deduplicated
concatenation of the two lists, while a name occurring in only one
operand keeps that operand's list unchanged; and sort-plus-dedup
produces a sorted, duplicate-free list with exactly the members of its
input. -/
theorem c8_merge_characterisation :
    (∀ v, SolverOutput.merge .ok v = v) ∧
    (∀ v, SolverOutput.merge v .ok = v) ∧
    (∀ (c d : List (String × List EntityRule)) (n : String),
      (d.map Prod.fst).Nodup →
      ((∀ lc ld, alookup n c = some lc → alookup n d = some ld →
        alookup n (mergedConflicts c d) = some (rustDedup (rustSort (lc ++ ld)))) ∧
       (∀ lc, alookup n c = some lc → alookup n d = none →
        alookup n (mergedConflicts c d) = some lc) ∧
       (∀ ld, alookup n c = none → alookup n d = some ld →
        alookup n (mergedConflicts c d) = some ld))) ∧
    (∀ l : List EntityRule,
      (rustDedup (rustSort l)).Pairwise (· ≤ ·) ∧ (rustDedup (rustSort l)).Nodup ∧
      ∀ r, r ∈ rustDedup (rustSort l) ↔ r ∈ l) := by
  refine ⟨?_, ?_, ?_, ?_⟩
  · intro v
    cases v <;> rfl
  · intro v
    cases v <;> rfl
  · intro c d n hd
    refine ⟨?_, ?_, ?_⟩
    · intro lc ld hc hdn
      rw [alookup_mergedConflicts c d n hd, hc, hdn]
    · intro lc hc hdn
      rw [alookup_mergedConflicts c d n hd, hc, hdn]
    · intro ld hc hdn
      rw [alookup_mergedConflicts c d n hd, hc, hdn]
  · intro l
    exact ⟨rustDedup_pairwise (rustSort_pairwise l),
      rustDedup_nodup _ (rustSort_pairwise l),
      fun r => (mem_rustDedup (rustSort l)).trans mem_rustSort⟩

/-- C8 witness: the amended merge characterisation applied to concrete
one-entry maps sharing the key `a`. -/
theorem c8_merge_characterisation_witness :
    (([("a", [mkReq "z" "a"])] : List (String × List EntityRule)).map Prod.fst).Nodup ∧
    alookup "a" (mergedConflicts [("a", [mkReq "z" "b"])] [("a", [mkReq "z" "a"])]) =
      some (rustDedup (rustSort ([mkReq "z" "b"] ++ [mkReq "z" "a"]))) := by
  refine ⟨by decide, ?_⟩
  exact (c8_merge_characterisation.2.2.1 [("a", [mkReq "z" "b"])] [("a", [mkReq "z" "a"])]
    "a" (by decide)).1 [mkReq "z" "b"] [mkReq "z" "a"] (by decide) (by decide)

theorem mem_countInsert_fst (acc : List (EntityRule × Nat)) (r x : EntityRule) :
    x ∈ (countInsert acc r).map Prod.fst ↔ x ∈ acc.map Prod.fst ∨ x = r := by
  induction acc with
  | nil => simp [countInsert]
  | cons p t ih =>
    by_cases hp : p.1 = r
    · simp only [countInsert, if_pos hp, List.map_cons, List.mem_cons]
      subst hp
      tauto
    · simp only [countInsert, if_neg hp, List.map_cons, List.mem_cons, ih]
      tauto

theorem mem_countFold_inner (l : List EntityRule) (acc : List (EntityRule × Nat))
    (x : EntityRule) :
    x ∈ (l.foldl countInsert acc).map Prod.fst ↔ x ∈ acc.map Prod.fst ∨ x ∈ l := by
  induction l generalizing acc with
  | nil => simp
  | cons r t ih =>
    rw [List.foldl_cons, ih, mem_countInsert_fst]
    simp only [List.mem_cons]
    tauto

theorem mem_countFold (uniq : List (List EntityRule)) (acc : List (EntityRule × Nat))
    (x : EntityRule) :
    x ∈ (uniq.foldl (fun acc l => l.foldl countInsert acc) acc).map Prod.fst ↔
      x ∈ acc.map Prod.fst ∨ ∃ l ∈ uniq, x ∈ l := by
  induction uniq generalizing acc with
  | nil => simp
  | cons l t ih =>
    rw [List.foldl_cons, ih, mem_countFold_inner]
    simp only [List.mem_cons]
    constructor
    · rintro ((h | h) | ⟨l0, hl0, hx⟩)
      · exact Or.inl h
      · exact Or.inr ⟨l, Or.inl rfl, h⟩
      · exact Or.inr ⟨l0, Or.inr hl0, hx⟩
    · rintro (h | ⟨l0, (rfl | hl0), hx⟩)
      · exact Or.inl (Or.inl h)
      · exact Or.inl (Or.inr hx)
      · exact Or.inr ⟨l0, hl0, hx⟩

theorem greedy_mem (k : Nat) :
    ∀ (l : List (EntityRule × Nat)) (p : List EntityRule × Nat) (x : EntityRule),
      x ∈ (l.foldl (greedyStep k) p).1 → x ∈ p.1 ∨ x ∈ l.map Prod.fst
  | [], p, x => fun h => Or.inl h
  | e :: t, p, x => fun h => by
    rw [List.foldl_cons] at h
    rcases greedy_mem k t (greedyStep k p e) x h with h1 | h1
    · rw [greedyStep] at h1
      split at h1
      · rcases List.mem_append.mp h1 with h2 | h2
        · exact Or.inl h2
        · exact Or.inr (by simp [List.mem_singleton.mp h2])
      · exact Or.inl h1
    · exact Or.inr (List.mem_cons_of_mem _ h1)

theorem greedy_nonempty (k : Nat) :
    ∀ (l : List (EntityRule × Nat)) (p : List EntityRule × Nat),
      p.1 ≠ [] → (l.foldl (greedyStep k) p).1 ≠ []
  | [], p => fun h => h
  | e :: t, p => fun h => by
    rw [List.foldl_cons]
    refine greedy_nonempty k t (greedyStep k p e) ?_
    rw [greedyStep]
    split
    · simp
    · exact h

/-- C7 (counterexample): for a conflict map holding three distinct
singleton rule lists, each containing a distinct two-target Multi
require rule, the greedy All policy stops after two rules (the
accumulated relation count 2+2 reaches the three distinct lists), so
one distinct rule list shares no rule with the recommendation. -/
theorem c7_counterexample :
    ∃ p ∈ c7cmap, ∀ r ∈ p.2, r ∉ recommend_policy_all c7cmap := by
  decide

/-- C7 (amended): when some conflicted rule list is non-empty, the All
recommendation is non-empty and every recommended rule occurs in some
conflicted rule list; but a distinct rule list need not share a rule
with the recommendation (the greedy fold stops once the accumulated
relation count reaches the number of distinct lists). -/
theorem c7_recommend_all_properties (conflicts : List (String × List EntityRule))
    (h : ∃ p ∈ conflicts, p.2 ≠ []) :
    recommend_policy_all conflicts ≠ [] ∧
    ∀ r ∈ recommend_policy_all conflicts, ∃ p ∈ conflicts, r ∈ p.2 := by
  obtain ⟨p0, hp0, hne0⟩ := h
  have hpuniq : p0.2 ∈ (conflicts.map (fun p => p.2)).dedup :=
    List.mem_dedup.mpr (List.mem_map.mpr ⟨p0, hp0, rfl⟩)
  have hk : 0 < (conflicts.map (fun p => p.2)).dedup.length :=
    List.length_pos.mpr (List.ne_nil_of_mem hpuniq)
  obtain ⟨r0, hr0⟩ := List.exists_mem_of_ne_nil p0.2 hne0
  have hrc : r0 ∈ ((conflicts.map (fun p => p.2)).dedup.foldl
      (fun acc l => l.foldl countInsert acc) []).map Prod.fst :=
    (mem_countFold _ [] r0).mpr (Or.inr ⟨p0.2, hpuniq, hr0⟩)
  constructor
  · rw [recommend_policy_all]
    cases hs : ((conflicts.map (fun p => p.2)).dedup.foldl
        (fun acc l => l.foldl countInsert acc) []).insertionSort (fun a b => b.2 ≤ a.2) with
    | nil =>
      exfalso
      have : ((conflicts.map (fun p => p.2)).dedup.foldl
          (fun acc l => l.foldl countInsert acc) []) = [] := by
        have hperm := List.perm_insertionSort
          (fun (a b : EntityRule × Nat) => b.2 ≤ a.2)
          ((conflicts.map (fun p => p.2)).dedup.foldl
            (fun acc l => l.foldl countInsert acc) [])
        rw [hs] at hperm
        exact (List.Perm.nil_eq hperm).symm
      rw [this] at hrc
      simp at hrc
    | cons e rest =>
      rw [List.foldl_cons]
      refine greedy_nonempty _ rest _ ?_
      rw [greedyStep, if_pos hk]
      simp
  · intro r hr
    rw [recommend_policy_all] at hr
    rcases greedy_mem _ _ _ _ hr with h1 | h1
    · exact absurd h1 (by simp)
    · have h2 : r ∈ (((conflicts.map (fun p => p.2)).dedup.foldl
          (fun acc l => l.foldl countInsert acc) [])).map Prod.fst := by
        rcases List.mem_map.mp h1 with ⟨q, hq, rfl⟩
        exact List.mem_map.mpr ⟨q, (List.mem_insertionSort _).mp hq, rfl⟩
      rcases (mem_countFold _ [] r).mp h2 with h3 | ⟨l0, hl0, hx⟩
      · exact absurd h3 (by simp)
      · rcases List.mem_map.mp (List.mem_dedup.mp hl0) with ⟨p, hp, rfl⟩
        exact ⟨p, hp, hx⟩

/-- C7 witness: the amended recommendation properties at a one-entry
conflict map. -/
theorem c7_recommend_all_properties_witness :
    (∃ p ∈ [("a", [mkReq "a" "b"])], p.2 ≠ ([] : List EntityRule)) ∧
    (recommend_policy_all [("a", [mkReq "a" "b"])] ≠ [] ∧
      ∀ r ∈ recommend_policy_all [("a", [mkReq "a" "b"])],
        ∃ p ∈ [("a", [mkReq "a" "b"])], r ∈ p.2) :=
  ⟨by decide, c7_recommend_all_properties [("a", [mkReq "a" "b"])] (by decide)⟩

/-- C2 witness: the amended characterisation at the concrete map built
from `A requires B`. -/
theorem c2_unknown_solver_characterisation_witness :
    UnknownSolver.solve c2Map = .conflict [("A", [mkReq "A" "B"])] ∧
    (∀ n rs, (n, rs) ∈ [("A", [mkReq "A" "B"])] ↔
      ∃ e ∈ c2Map.entities, e.name = n ∧
        rs = e.rules.filter (unknownRuleFlag (collect_definitions c2Map)) ∧ rs ≠ []) :=
  ⟨by decide,
   (c2_unknown_solver_characterisation c2Map).2.2 [("A", [mkReq "A" "B"])] (by decide)⟩

/-- C6 witness: an underscore-free key is left unchanged by the
post-merge truncation. -/
theorem c6_postmerge_truncates_witness :
    ("plain" : String).data.contains '_' = false ∧ truncKey "plain" = "plain" :=
  ⟨by decide, c6_postmerge_truncates_underscore_keys.1 "plain" (by decide)⟩

/-- The `EntityMap` built from the entity `X` that both requires and
excludes itself. -/
def c3wMap : EntityMap :=
  EntityMap.mk
    [Entity.mk "X_1" [mkReq "X" "X_1", mkReq "X" "X_2"] [mkExc "X" "X_2"] .unknown .default,
     Entity.mk "X_2" [mkReq "X" "X_1", mkReq "X" "X_2"] [mkExc "X" "X_1"] .unknown .default]
    ["X_1", "X_1", "X_2", "X_2", "X_2", "X_1", "X_2", "X_1"] ["X"]

/-- C3 (counterexample): the entity `X` with a self-exclude and no
self-require *is* split by preprocessing (the built map contains `X_1`
and `X_2`), yet the self-conflict set of the built map is empty — the
code records a split name only when the entity is also self-requiring. -/
theorem c3_counterexample :
    EntityMap.build [mkEnt "X" [] [mkExc "X" "X"]] = .ok c3Map ∧
    selfExcludes (mkEnt "X" [] [mkExc "X" "X"]) = true ∧
    c3Map.self_conflicts = [] ∧
    (∃ e ∈ c3Map.entities, e.name = "X_1") ∧ (∃ e ∈ c3Map.entities, e.name = "X_2") := by
  decide

/-- C3 (amended): the self-conflict set of a built map holds exactly
the names of input entities that are self-excluding (an exclude rule
targets the entity's own name) *and* self-requiring in the sense of the
code's flag (a Mono require targets the own name, or a Multi require
has all targets equal to the own name). -/
theorem c3_self_conflicts_characterisation (es : List Entity) (m : EntityMap)
    (h : EntityMap.build es = .ok m) :
    ∀ n, n ∈ m.self_conflicts ↔
      ∃ e ∈ es, e.name = n ∧ selfExcludes e = true ∧ selfRequireFlag e = true := by
  intro n
  rw [EntityMap.build] at h
  split at h
  · obtain rfl : _ = m := by injection h
    show n ∈ (preprocessing_self_conflicts es).2 ↔ _
    rw [preprocessing_self_conflicts]
    simp only [List.mem_map, List.mem_filter, Bool.and_eq_true]
    constructor
    · rintro ⟨e, ⟨he, h1, h2⟩, rfl⟩
      exact ⟨e, he, rfl, h1, h2⟩
    · rintro ⟨e, he, rfl, h1, h2⟩
      exact ⟨e, ⟨he, h1, h2⟩, rfl⟩
  · exact absurd h (by simp)

/-- C3 witness: the characterisation at the entity that both requires
and excludes itself, whose name is recorded. -/
theorem c3_self_conflicts_characterisation_witness :
    EntityMap.build [mkEnt "X" [mkReq "X" "X"] [mkExc "X" "X"]] = .ok c3wMap ∧
    ("X" ∈ c3wMap.self_conflicts ↔
      ∃ e ∈ [mkEnt "X" [mkReq "X" "X"] [mkExc "X" "X"]],
        e.name = "X" ∧ selfExcludes e = true ∧ selfRequireFlag e = true) :=
  ⟨by decide,
   c3_self_conflicts_characterisation [mkEnt "X" [mkReq "X" "X"] [mkExc "X" "X"]]
     c3wMap (by decide) "X"⟩

theorem ne_append_of_length_ne_zero (s t : String) (ht : t.length ≠ 0) : s ≠ s ++ t := by
  intro h
  have hlen := congrArg String.length h
  rw [String.length_append] at hlen
  omega

theorem selfExcludes_iff (e : Entity) :
    selfExcludes e = true ↔ ∃ r ∈ e.excludes, e.name ∈ r.targets := by
  rw [selfExcludes, List.any_eq_true]
  constructor
  · rintro ⟨r, hr, hc⟩
    refine ⟨r, hr, ?_⟩
    cases r with
    | mono s t ty rs md =>
      simp only [decide_eq_true_eq] at hc
      simp [EntityRule.targets, hc]
    | multi s ts ty rs md =>
      rw [List.any_eq_true] at hc
      obtain ⟨x, hx, hxe⟩ := hc
      simp only [decide_eq_true_eq] at hxe
      simpa [EntityRule.targets, ← hxe] using hx
  · rintro ⟨r, hr, hc⟩
    refine ⟨r, hr, ?_⟩
    cases r with
    | mono s t ty rs md =>
      simp only [EntityRule.targets, List.mem_singleton] at hc
      simp [hc]
    | multi s ts ty rs md =>
      rw [List.any_eq_true]
      exact ⟨e.name, hc, by simp⟩

theorem splitMapping_eq_some_iff (es : List Entity) (n : String) (p : String × String) :
    splitMapping es n = some p ↔
      (∃ e ∈ es, e.name = n ∧ selfExcludes e = true) ∧ p = (n ++ "_1", n ++ "_2") := by
  rw [splitMapping]
  split
  · rename_i hany
    rw [List.any_eq_true] at hany
    obtain ⟨e, he, hc⟩ := hany
    rw [Bool.and_eq_true, decide_eq_true_eq] at hc
    simp only [Option.some.injEq]
    constructor
    · intro h
      exact ⟨⟨e, he, hc.1, hc.2⟩, h.symm⟩
    · intro h
      exact h.2.symm
  · rename_i hany
    simp only [reduceCtorEq, false_iff]
    rintro ⟨⟨e, he, hn, hse⟩, _⟩
    exact hany (List.any_eq_true.mpr ⟨e, he, by
      rw [Bool.and_eq_true, decide_eq_true_eq]
      exact ⟨hn, hse⟩⟩)

theorem flatMap_singleton_ite (ts : List String) (frm sib : String) :
    (ts.flatMap (fun x => if x = frm then [sib] else [x])) =
      ts.map (fun x => if x = frm then sib else x) := by
  induction ts with
  | nil => rfl
  | cons a t ih =>
    simp only [List.flatMap_cons, List.map_cons, ih]
    split <;> rfl

theorem map_eq_singleton_iff {α β : Type} {f : α → β} {l : List α} {b : β} :
    l.map f = [b] ↔ ∃ a, l = [a] ∧ f a = b := by
  cases l with
  | nil => simp
  | cons x t =>
    cases t with
    | nil => simp
    | cons y t2 => simp

theorem splitExcludeRule_shape (mapping : String → Option (String × String))
    (r r' : EntityRule) (h : r' ∈ splitExcludeRule mapping r) :
    r'.src = r.src ∧
    ∀ t, r'.targets = [t] →
      ∃ w, r.targets = [w] ∧
        ((mapping w = none ∧ t = w) ∨ ∃ a b, mapping w = some (a, b) ∧ (t = a ∨ t = b)) := by
  cases r with
  | mono s w ty rs md =>
    rw [splitExcludeRule] at h
    cases hmap : mapping w with
    | some p =>
      obtain ⟨a, b⟩ := p
      rw [hmap] at h
      rcases List.mem_cons.mp h with rfl | h2
      · exact ⟨rfl, fun t ht => ⟨w, rfl, Or.inr ⟨a, b, hmap, Or.inl (by
          simpa [EntityRule.targets] using ht.symm)⟩⟩⟩
      · rcases List.mem_singleton.mp h2 with rfl
        exact ⟨rfl, fun t ht => ⟨w, rfl, Or.inr ⟨a, b, hmap, Or.inr (by
          simpa [EntityRule.targets] using ht.symm)⟩⟩⟩
    | none =>
      rw [hmap] at h
      rcases List.mem_singleton.mp h with rfl
      exact ⟨rfl, fun t ht => ⟨w, rfl, Or.inl ⟨hmap, by
        simpa [EntityRule.targets] using ht.symm⟩⟩⟩
  | multi s ts ty rs md =>
    rw [splitExcludeRule] at h
    split at h
    · rcases List.mem_cons.mp h with rfl | h2
      · refine ⟨rfl, fun t ht => ?_⟩
        simp only [EntityRule.targets] at ht
        obtain ⟨w, rfl, hw⟩ := map_eq_singleton_iff.mp ht
        refine ⟨w, rfl, ?_⟩
        cases hmap : mapping w with
        | some p =>
          obtain ⟨a, b⟩ := p
          rw [hmap] at hw
          exact Or.inr ⟨a, b, rfl, Or.inl hw.symm⟩
        | none =>
          rw [hmap] at hw
          exact Or.inl ⟨rfl, hw.symm⟩
      · rcases List.mem_singleton.mp h2 with rfl
        refine ⟨rfl, fun t ht => ?_⟩
        simp only [EntityRule.targets] at ht
        obtain ⟨w, rfl, hw⟩ := map_eq_singleton_iff.mp ht
        refine ⟨w, rfl, ?_⟩
        cases hmap : mapping w with
        | some p =>
          obtain ⟨a, b⟩ := p
          rw [hmap] at hw
          exact Or.inr ⟨a, b, rfl, Or.inr hw.symm⟩
        | none =>
          rw [hmap] at hw
          exact Or.inl ⟨rfl, hw.symm⟩
    · rename_i hflag
      rcases List.mem_singleton.mp h with rfl
      refine ⟨rfl, fun t ht => ?_⟩
      simp only [EntityRule.targets] at ht
      subst ht
      refine ⟨t, rfl, Or.inl ⟨?_, rfl⟩⟩
      cases hmap : mapping t with
      | some p =>
        exact absurd (List.any_eq_true.mpr ⟨t, by simp, by simp [hmap]⟩) hflag
      | none => rfl

theorem renameRule_shape (frm sib : String) (r0 r1 : EntityRule)
    (h : r1 ∈ renameRule frm [sib] r0) :
    r1.src = r0.src ∧
    ∀ t, r1.targets = [t] →
      ∃ w, r0.targets = [w] ∧ ((w = frm ∧ t = sib) ∨ (¬w = frm ∧ t = w)) := by
  cases r0 with
  | mono s w ty rs md =>
    rw [renameRule] at h
    split at h
    · rename_i hw
      rcases List.mem_singleton.mp (by simpa using h) with rfl
      exact ⟨rfl, fun t ht => ⟨w, rfl, Or.inl ⟨hw, by
        simpa [EntityRule.targets] using ht.symm⟩⟩⟩
    · rename_i hw
      rcases List.mem_singleton.mp h with rfl
      exact ⟨rfl, fun t ht => ⟨w, rfl, Or.inr ⟨hw, by
        simpa [EntityRule.targets] using ht.symm⟩⟩⟩
  | multi s ts ty rs md =>
    rw [renameRule] at h
    rcases List.mem_singleton.mp h with rfl
    refine ⟨rfl, fun t ht => ?_⟩
    simp only [EntityRule.targets] at ht
    rw [flatMap_singleton_ite] at ht
    obtain ⟨w, rfl, hw⟩ := map_eq_singleton_iff.mp ht
    refine ⟨w, rfl, ?_⟩
    by_cases hwf : w = frm
    · rw [if_pos hwf] at hw
      exact Or.inl ⟨hwf, hw.symm⟩
    · rw [if_neg hwf] at hw
      exact Or.inr ⟨hwf, hw.symm⟩

theorem mem_phase1 (e0 e1 : Entity) (h : e1 ∈ phase1Entity e0) :
    (selfExcludes e0 = false ∧ e1 = e0) ∨
    (selfExcludes e0 = true ∧
      (e1 = Entity.mk (e0.name ++ "_1")
          (force_split_rules e0.requires e0.name [e0.name ++ "_1", e0.name ++ "_2"])
          (rename_set e0.excludes e0.name [e0.name ++ "_2"]) e0.source e0.priority ∨
       e1 = Entity.mk (e0.name ++ "_2")
          (force_split_rules e0.requires e0.name [e0.name ++ "_1", e0.name ++ "_2"])
          (rename_set e0.excludes e0.name [e0.name ++ "_1"]) e0.source e0.priority)) := by
  rw [phase1Entity] at h
  by_cases hs : selfExcludes e0
  · rw [hs] at h
    simp only [Bool.not_true, Bool.false_eq_true, if_false] at h
    rcases List.mem_cons.mp h with rfl | h2
    · exact Or.inr ⟨hs, Or.inl rfl⟩
    · rcases List.mem_singleton.mp h2 with rfl
      exact Or.inr ⟨hs, Or.inr rfl⟩
  · rw [Bool.not_eq_true] at hs
    rw [hs] at h
    simp only [Bool.not_false, if_true] at h
    rcases List.mem_singleton.mp h with rfl
    exact Or.inl ⟨hs, rfl⟩

/-- Shape of the exclude rules present after the first preprocessing
pass: each carries its original owner's name in the source field
(given well-formed input sources), and a single target is either one of
the owner's sibling names or differs from the owner's name. -/
theorem phase1_exclude_shape (e0 e1 : Entity) (r1 : EntityRule)
    (he1m : e1 ∈ phase1Entity e0) (hr1 : r1 ∈ e1.excludes)
    (hwf0 : ∀ r ∈ e0.excludes, r.src = e0.name) :
    r1.src = e0.name ∧
    ∀ w, r1.targets = [w] →
      (w = e0.name ++ "_1" ∨ w = e0.name ++ "_2" ∨ ¬w = e0.name) := by
  rcases mem_phase1 e0 e1 he1m with ⟨hs0, heq⟩ | ⟨hs0, heq | heq⟩
  · rw [heq] at hr1
    refine ⟨hwf0 r1 hr1, fun w hw => Or.inr (Or.inr fun hwe => ?_)⟩
    have : selfExcludes e0 = true :=
      (selfExcludes_iff e0).mpr ⟨r1, hr1, by rw [hw, hwe]; simp⟩
    rw [hs0] at this
    exact absurd this (by simp)
  · rw [heq] at hr1
    have hr1' : r1 ∈ rename_set e0.excludes e0.name [e0.name ++ "_2"] := hr1
    obtain ⟨r0, hr0, hrn⟩ := List.mem_flatMap.mp hr1'
    obtain ⟨hsrc0, hshape0⟩ := renameRule_shape _ _ _ _ hrn
    refine ⟨hsrc0.trans (hwf0 r0 hr0), fun w hw => ?_⟩
    obtain ⟨w0, _, hc0⟩ := hshape0 w hw
    rcases hc0 with ⟨_, rfl⟩ | ⟨hne, rfl⟩
    · exact Or.inr (Or.inl rfl)
    · exact Or.inr (Or.inr fun hwe => hne hwe)
  · rw [heq] at hr1
    have hr1' : r1 ∈ rename_set e0.excludes e0.name [e0.name ++ "_1"] := hr1
    obtain ⟨r0, hr0, hrn⟩ := List.mem_flatMap.mp hr1'
    obtain ⟨hsrc0, hshape0⟩ := renameRule_shape _ _ _ _ hrn
    refine ⟨hsrc0.trans (hwf0 r0 hr0), fun w hw => ?_⟩
    obtain ⟨w0, _, hc0⟩ := hshape0 w hw
    rcases hc0 with ⟨_, rfl⟩ | ⟨hne, rfl⟩
    · exact Or.inl rfl
    · exact Or.inr (Or.inr fun hwe => hne hwe)

theorem names_preprocessed (es : List Entity) :
    (preprocessing_self_conflicts es).1.map Entity.name =
      (es.flatMap phase1Entity).map Entity.name := by
  rw [preprocessing_self_conflicts, List.map_map]
  rfl

/-- C4 (counterexample): next to the split entity `X`, the
self-requiring entity `Y` (no self-exclude) keeps its rule
`Y require Y`, whose source equals its only target literally — the
post-preprocessing list is not free of such rules. -/
theorem c4_counterexample :
    EntityMap.build c4es = .ok c4Map ∧
    selfExcludes (mkEnt "X" [] [mkExc "X" "X"]) = true ∧
    (∃ e ∈ c4Map.entities, ∃ r ∈ e.rules, r.targets = [r.src]) := by
  decide

/-- C4 (amended): for any accepted entity list in which every exclude
rule's source field equals its owning entity's name and the `_1`/`_2`
sibling names of self-excluding entities do not collide with existing
entity names, every self-excluding entity `X` yields both `X_1` and
`X_2` in the built map, and no *exclude* rule of any produced entity
has its source equal to its only target literally.  (Require rules may
keep source equal to target: a self-requiring, non-self-excluding
entity is left untouched.) -/
theorem c4_split_siblings_and_no_self_exclude (es : List Entity) (m : EntityMap) (X : Entity)
    (hb : EntityMap.build es = .ok m)
    (hX : X ∈ es) (hse : selfExcludes X = true)
    (hwf : ∀ e ∈ es, ∀ r ∈ e.excludes, r.src = e.name)
    (hfresh : ∀ e ∈ es, selfExcludes e = true →
      (e.name ++ "_1") ∉ es.map Entity.name ∧ (e.name ++ "_2") ∉ es.map Entity.name) :
    ((X.name ++ "_1") ∈ m.entities.map Entity.name ∧
     (X.name ++ "_2") ∈ m.entities.map Entity.name) ∧
    (∀ E ∈ m.entities, ∀ r ∈ E.excludes, ∀ t, r.targets = [t] → r.src ≠ t) := by
  have hm : m.entities = (preprocessing_self_conflicts es).1 := by
    rw [EntityMap.build] at hb
    split at hb
    · obtain rfl : _ = m := by injection hb
      rfl
    · exact absurd hb (by simp)
  constructor
  · rw [hm, names_preprocessed]
    constructor
    · refine List.mem_map.mpr ⟨Entity.mk (X.name ++ "_1")
        (force_split_rules X.requires X.name [X.name ++ "_1", X.name ++ "_2"])
        (rename_set X.excludes X.name [X.name ++ "_2"]) X.source X.priority,
        List.mem_flatMap.mpr ⟨X, hX, ?_⟩, rfl⟩
      rw [phase1Entity, hse]
      simp
    · refine List.mem_map.mpr ⟨Entity.mk (X.name ++ "_2")
        (force_split_rules X.requires X.name [X.name ++ "_1", X.name ++ "_2"])
        (rename_set X.excludes X.name [X.name ++ "_1"]) X.source X.priority,
        List.mem_flatMap.mpr ⟨X, hX, ?_⟩, rfl⟩
      rw [phase1Entity, hse]
      simp
  · intro E hE r hr t ht
    rw [hm, preprocessing_self_conflicts] at hE
    simp only [List.mem_map] at hE
    obtain ⟨e1, he1, hEeq⟩ := hE
    obtain ⟨e0, he0, he1m⟩ := List.mem_flatMap.mp he1
    rw [← hEeq] at hr
    have hr' : r ∈ split_exclude_rules e1.excludes (splitMapping es) := hr
    obtain ⟨r1, hr1, hrs⟩ := List.mem_flatMap.mp hr'
    obtain ⟨hsrc, hshape⟩ := splitExcludeRule_shape _ _ _ hrs
    obtain ⟨w, hw, hcase⟩ := hshape t ht
    obtain ⟨hsrc1, hshape1⟩ := phase1_exclude_shape e0 e1 r1 he1m hr1 (hwf e0 he0)
    have hsrc_name : r.src = e0.name := hsrc.trans hsrc1
    rcases hcase with ⟨hmapw, heq⟩ | ⟨a, b, hmapw, hab⟩
    · rw [hsrc_name, heq]
      rcases hshape1 w hw with h1 | h1 | h1
      · rw [h1]
        exact ne_append_of_length_ne_zero _ _ (by decide)
      · rw [h1]
        exact ne_append_of_length_ne_zero _ _ (by decide)
      · exact fun he => h1 he.symm
    · obtain ⟨⟨eZ, heZ, hZn, hZse⟩, habp⟩ := (splitMapping_eq_some_iff es w (a, b)).mp hmapw
      have hfZ := hfresh eZ heZ hZse
      rw [hZn] at hfZ
      have hsrc_in : r.src ∈ es.map Entity.name := by
        rw [hsrc_name]
        exact List.mem_map.mpr ⟨e0, he0, rfl⟩
      rcases hab with heq | heq
      · have ha : a = w ++ "_1" := congrArg Prod.fst habp
        rw [heq, ha]
        exact fun h2 => hfZ.1 (h2 ▸ hsrc_in)
      · have hbb : b = w ++ "_2" := congrArg Prod.snd habp
        rw [heq, hbb]
        exact fun h2 => hfZ.2 (h2 ▸ hsrc_in)

/-- C4 witness: the amended statement at the single self-excluding
entity `X` (well-formed sources, fresh sibling names). -/
theorem c4_split_siblings_witness :
    EntityMap.build [mkEnt "X" [] [mkExc "X" "X"]] = .ok c3Map ∧
    (("X_1" : String) ∈ c3Map.entities.map Entity.name ∧
      ("X_2" : String) ∈ c3Map.entities.map Entity.name) ∧
    (∀ E ∈ c3Map.entities, ∀ r ∈ E.excludes, ∀ t, r.targets = [t] → r.src ≠ t) := by
  refine ⟨by decide, ?_⟩
  have h := c4_split_siblings_and_no_self_exclude [mkEnt "X" [] [mkExc "X" "X"]] c3Map
    (mkEnt "X" [] [mkExc "X" "X"]) (by decide) (by decide) (by decide)
    (by decide) (by decide)
  exact h

/-! ### C5: soundness of the Ring engine -/

/-- Some labelled require-edge connects `u` to `v`. -/
def hasEdge (edges : List (String × String × EntityRule)) (u v : String) : Prop :=
  ∃ e ∈ edges, e.1 = u ∧ e.2.1 = v

instance (edges : List (String × String × EntityRule)) (u v : String) :
    Decidable (hasEdge edges u v) :=
  decidable_of_iff (edges.any (fun e => e.1 == u && e.2.1 == v) = true) (by
    rw [List.any_eq_true]
    constructor
    · rintro ⟨e, he, hb⟩
      rw [Bool.and_eq_true, beq_iff_eq, beq_iff_eq] at hb
      exact ⟨e, he, hb⟩
    · rintro ⟨e, he, h1, h2⟩
      refine ⟨e, he, ?_⟩
      rw [Bool.and_eq_true, beq_iff_eq, beq_iff_eq]
      exact ⟨h1, h2⟩)

instance (edges : List (String × String × EntityRule)) :
    DecidableRel (hasEdge edges) :=
  fun _ _ => inferInstance

/-- The validity hypothesis on one entry of the `graph.cycles()` result:
a nonempty duplicate-free node list that is cyclically chained by
require-edges. -/
def IsCycleOf (edges : List (String × String × EntityRule)) (c : List String) : Prop :=
  c.Nodup ∧ c ≠ [] ∧ List.Chain' (hasEdge edges) (c ++ [c.headI])

/-- Boolean edge test matching `hasEdge`. -/
def edgeB (edges : List (String × String × EntityRule)) (u v : String) : Bool :=
  edges.any (fun e => e.1 == u && e.2.1 == v)

theorem hasEdge_iff_edgeB (edges : List (String × String × EntityRule)) (u v : String) :
    hasEdge edges u v ↔ edgeB edges u v = true := by
  rw [edgeB, List.any_eq_true, hasEdge]
  constructor
  · rintro ⟨e, he, h1, h2⟩
    refine ⟨e, he, ?_⟩
    rw [Bool.and_eq_true, beq_iff_eq, beq_iff_eq]
    exact ⟨h1, h2⟩
  · rintro ⟨e, he, hb⟩
    rw [Bool.and_eq_true, beq_iff_eq, beq_iff_eq] at hb
    exact ⟨e, he, hb⟩

/-- Boolean chain test. -/
def chainB (f : String → String → Bool) : String → List String → Bool
  | _, [] => true
  | a, b :: t => f a b && chainB f b t

theorem chainB_iff (f : String → String → Bool) (R : String → String → Prop)
    (hf : ∀ u v, R u v ↔ f u v = true) :
    ∀ (a : String) (l : List String), chainB f a l = true ↔ List.Chain R a l
  | a, [] => by simp [chainB]
  | a, b :: t => by
    rw [chainB, Bool.and_eq_true, List.chain_cons, chainB_iff f R hf b t, hf a b]

/-- Boolean `Chain'` test. -/
def chainB' (f : String → String → Bool) : List String → Bool
  | [] => true
  | a :: t => chainB f a t

theorem chainB'_iff (f : String → String → Bool) (R : String → String → Prop)
    (hf : ∀ u v, R u v ↔ f u v = true) :
    ∀ l : List String, chainB' f l = true ↔ List.Chain' R l
  | [] => by simp [chainB', List.Chain']
  | a :: t => chainB_iff f R hf a t

instance (edges : List (String × String × EntityRule)) (c : List String) :
    Decidable (IsCycleOf edges c) :=
  decidable_of_iff
    (c.Nodup ∧ c ≠ [] ∧ chainB' (edgeB edges) (c ++ [c.headI]) = true)
    (by
      rw [IsCycleOf]
      exact and_congr Iff.rfl (and_congr Iff.rfl
        (chainB'_iff (edgeB edges) (hasEdge edges) (hasEdge_iff_edgeB edges) _)))

theorem chain_reach_from_head {E : String → String → Prop} (a : String) (l : List String)
    (h : List.Chain E a l) : ∀ y ∈ a :: l, Relation.ReflTransGen E a y := by
  induction l generalizing a with
  | nil =>
    intro y hy
    rcases List.mem_singleton.mp hy with rfl
    exact .refl
  | cons b l2 ih =>
    rcases List.chain_cons.mp h with ⟨hab, h2⟩
    intro y hy
    rcases List.mem_cons.mp hy with rfl | hy2
    · exact .refl
    · exact Relation.ReflTransGen.head hab (ih b h2 y hy2)

theorem chain_reach_to_last {E : String → String → Prop} (a : String) (l : List String)
    (h : List.Chain E a l) :
    ∀ x ∈ a :: l, Relation.ReflTransGen E x ((a :: l).getLast (by simp)) := by
  induction l generalizing a with
  | nil =>
    intro x hx
    rcases List.mem_singleton.mp hx with rfl
    exact .refl
  | cons b l2 ih =>
    rcases List.chain_cons.mp h with ⟨hab, h2⟩
    intro x hx
    have hlast : (a :: b :: l2).getLast (by simp) = (b :: l2).getLast (by simp) :=
      List.getLast_cons (by simp)
    rcases List.mem_cons.mp hx with rfl | hx2
    · rw [hlast]
      exact Relation.ReflTransGen.head hab (ih b h2 b (List.mem_cons_self b l2))
    · rw [hlast]
      exact ih b h2 x hx2

theorem cycle_reach {edges : List (String × String × EntityRule)} {c : List String}
    (hc : IsCycleOf edges c) {x y : String} (hx : x ∈ c) (hy : y ∈ c) :
    Relation.ReflTransGen (hasEdge edges) x y := by
  obtain ⟨_, hne, hchain⟩ := hc
  obtain ⟨a, l, rfl⟩ := List.exists_cons_of_ne_nil hne
  have hch : List.Chain (hasEdge edges) a (l ++ [a]) := hchain
  have hxl := chain_reach_to_last a (l ++ [a]) hch x
    (by rcases List.mem_cons.mp hx with rfl | hx2
        · exact List.mem_cons_self _ _
        · exact List.mem_cons_of_mem _ (List.mem_append_left _ hx2))
  have hlast_eq : (a :: (l ++ [a])).getLast (by simp) = a :=
    List.getLast_concat (a :: l)
  have hay := chain_reach_from_head a (l ++ [a]) hch y
    (by rcases List.mem_cons.mp hy with rfl | hy2
        · exact List.mem_cons_self _ _
        · exact List.mem_cons_of_mem _ (List.mem_append_left _ hy2))
  exact (hlast_eq ▸ hxl).trans hay

/-- The conditions under which the first pass walks one edge occurrence
(source node in the cycle, distinct in-cycle target, matching rule
source field, `is_in_target`), for some listed cycle of more than one
node. -/
def HitProp (edges : List (String × String × EntityRule)) (cycles : List (List String))
    (h : String × String × EntityRule) : Prop :=
  ∃ c ∈ cycles, ¬c.length = 1 ∧ h.1 ∈ c ∧ h.2.1 ∈ c ∧ ¬h.2.1 = h.1 ∧
    h.2.2.src = h.1 ∧ h.2.2.is_in_target h.2.1 = true ∧ h ∈ edges

theorem mem_cycleHits_iff (edges : List (String × String × EntityRule)) (c : List String)
    (h : String × String × EntityRule) :
    h ∈ cycleHits edges c ↔
      ¬c.length = 1 ∧ h.1 ∈ c ∧ h.2.1 ∈ c ∧ ¬h.2.1 = h.1 ∧
        h.2.2.src = h.1 ∧ h.2.2.is_in_target h.2.1 = true ∧ h ∈ edges := by
  rw [cycleHits]
  split
  · rename_i hlen
    simp [hlen]
  · rename_i hlen
    rw [List.mem_flatMap]
    constructor
    · rintro ⟨u, hu, hmem⟩
      rw [List.mem_filter] at hmem
      obtain ⟨hmem, hcond⟩ := hmem
      rw [Bool.and_eq_true, Bool.and_eq_true, Bool.and_eq_true, Bool.and_eq_true] at hcond
      obtain ⟨⟨⟨⟨h1, h2⟩, h3⟩, h4⟩, h5⟩ := hcond
      rw [beq_iff_eq] at h1
      rw [Bool.not_eq_true', beq_eq_false_iff_ne] at h2
      rw [beq_iff_eq] at h4
      subst h1
      exact ⟨hlen, hu, List.elem_iff.mp h3, fun hh => h2 hh, h4.symm, h5, hmem⟩
    · rintro ⟨_, hu, hv, hne, hsrc, hiit, hmem⟩
      refine ⟨h.1, hu, ?_⟩
      rw [List.mem_filter]
      refine ⟨hmem, ?_⟩
      rw [Bool.and_eq_true, Bool.and_eq_true, Bool.and_eq_true, Bool.and_eq_true]
      refine ⟨⟨⟨⟨beq_self_eq_true h.1, ?_⟩, List.elem_iff.mpr hv⟩,
        beq_iff_eq.mpr hsrc.symm⟩, hiit⟩
      rw [Bool.not_eq_true', beq_eq_false_iff_ne]
      exact hne

theorem mem_ringHits_iff (edges : List (String × String × EntityRule))
    (cycles : List (List String)) (h : String × String × EntityRule) :
    h ∈ ringHits edges cycles ↔ HitProp edges cycles h := by
  rw [ringHits, List.mem_flatMap, HitProp]
  constructor
  · rintro ⟨c, hc, hmem⟩
    exact ⟨c, hc, (mem_cycleHits_iff edges c h).mp hmem⟩
  · rintro ⟨c, hc, hprop⟩
    exact ⟨c, hc, (mem_cycleHits_iff edges c h).mpr hprop⟩

theorem waysGet_waysInsert_same (w : List (EntityRule × List String)) (r : EntityRule)
    (v : String) :
    waysGet (waysInsert w r v) r =
      if (waysGet w r).contains v then waysGet w r else waysGet w r ++ [v] := by
  induction w with
  | nil => simp [waysInsert, waysGet]
  | cons p t ih =>
    by_cases hp : p.1 = r
    · simp [waysInsert, waysGet, hp]
    · simp only [waysInsert, if_neg hp, waysGet, ih]

theorem waysGet_waysInsert_other (w : List (EntityRule × List String)) (r : EntityRule)
    (v : String) (r' : EntityRule) (h : ¬r' = r) :
    waysGet (waysInsert w r v) r' = waysGet w r' := by
  induction w with
  | nil =>
    simp only [waysInsert, waysGet]
    rw [if_neg (fun hh => h hh.symm)]
  | cons p t ih =>
    by_cases hp : p.1 = r
    · have hpr : ¬p.1 = r' := fun hh => h (hh.symm.trans hp)
      simp only [waysInsert, if_pos hp, waysGet, if_neg hpr]
    · simp only [waysInsert, if_neg hp, waysGet]
      by_cases hm : p.1 = r'
      · simp [hm]
      · simp [hm, ih]

theorem waysGet_length_mono (w : List (EntityRule × List String)) (r : EntityRule)
    (v : String) (r' : EntityRule) :
    (waysGet w r').length ≤ (waysGet (waysInsert w r v) r').length := by
  by_cases h : r' = r
  · subst h
    rw [waysGet_waysInsert_same]
    split
    · exact le_refl _
    · simp
  · rw [waysGet_waysInsert_other w r v r' h]

theorem ringStep_cases (st : RingState) (h0 : String × String × EntityRule) :
    (1 < h0.2.2.targets.length ∧
      h0.2.2.targets.length ≤
        (waysGet (waysInsert st.ways h0.2.2 h0.2.1) h0.2.2).length ∧
      ringStep st h0 = ⟨st.conflicts ++ [h0], waysInsert st.ways h0.2.2 h0.2.1⟩) ∨
    (1 < h0.2.2.targets.length ∧
      ringStep st h0 = ⟨st.conflicts, waysInsert st.ways h0.2.2 h0.2.1⟩) ∨
    (¬1 < h0.2.2.targets.length ∧
      ringStep st h0 = ⟨st.conflicts ++ [h0], st.ways⟩) := by
  rw [ringStep]
  by_cases htl : 1 < h0.2.2.targets.length
  · rw [if_pos htl]
    by_cases hcnt : h0.2.2.targets.length ≤
        (waysGet (waysInsert st.ways h0.2.2 h0.2.1) h0.2.2).length
    · rw [if_pos hcnt]
      exact Or.inl ⟨htl, hcnt, rfl⟩
    · rw [if_neg hcnt]
      exact Or.inr (Or.inl ⟨htl, rfl⟩)
  · rw [if_neg htl]
    exact Or.inr (Or.inr ⟨htl, rfl⟩)

theorem conflicts_fold_mono :
    ∀ (l : List (String × String × EntityRule)) (st : RingState)
      (x : String × String × EntityRule),
      x ∈ st.conflicts → x ∈ (l.foldl ringStep st).conflicts
  | [], _, _ => fun hx => hx
  | h0 :: t, st, x => fun hx => by
    rw [List.foldl_cons]
    refine conflicts_fold_mono t _ x ?_
    rcases ringStep_cases st h0 with ⟨_, _, heq⟩ | ⟨_, heq⟩ | ⟨_, heq⟩ <;> rw [heq]
    · exact List.mem_append_left _ hx
    · exact hx
    · exact List.mem_append_left _ hx

theorem mono_hits_pushed :
    ∀ (l : List (String × String × EntityRule)) (st : RingState)
      (h : String × String × EntityRule),
      h ∈ l → h.2.2.targets.length ≤ 1 → h ∈ (l.foldl ringStep st).conflicts
  | [], _, _ => fun hl _ => absurd hl (List.not_mem_nil _)
  | h0 :: t, st, h => fun hl hmono => by
    rw [List.foldl_cons]
    rcases List.mem_cons.mp hl with rfl | hl2
    · refine conflicts_fold_mono t _ h ?_
      rcases ringStep_cases st h with ⟨htl, _, heq⟩ | ⟨htl, heq⟩ | ⟨_, heq⟩ <;> rw [heq]
      · exact absurd htl (by omega)
      · exact absurd htl (by omega)
      · exact List.mem_append_right _ (List.mem_singleton_self h)
    · exact mono_hits_pushed t _ h hl2 hmono

theorem ringFold_invariant (edges : List (String × String × EntityRule))
    (cycles : List (List String)) :
    ∀ (l : List (String × String × EntityRule)) (st : RingState),
      (∀ h ∈ l, HitProp edges cycles h) →
      ((∀ x ∈ st.conflicts, HitProp edges cycles x) ∧
       (∀ x ∈ st.conflicts, 1 < x.2.2.targets.length →
         x.2.2.targets.length ≤ (waysGet st.ways x.2.2).length) ∧
       (∀ r : EntityRule, (waysGet st.ways r).Nodup) ∧
       (∀ (r : EntityRule) (v : String), v ∈ waysGet st.ways r →
         v ∈ r.targets ∧ ∃ u, HitProp edges cycles (u, v, r))) →
      ((∀ x ∈ (l.foldl ringStep st).conflicts, HitProp edges cycles x) ∧
       (∀ x ∈ (l.foldl ringStep st).conflicts, 1 < x.2.2.targets.length →
         x.2.2.targets.length ≤ (waysGet (l.foldl ringStep st).ways x.2.2).length) ∧
       (∀ r : EntityRule, (waysGet (l.foldl ringStep st).ways r).Nodup) ∧
       (∀ (r : EntityRule) (v : String), v ∈ waysGet (l.foldl ringStep st).ways r →
         v ∈ r.targets ∧ ∃ u, HitProp edges cycles (u, v, r)))
  | [], st => fun _ hInv => hInv
  | h0 :: t, st => fun hl hInv => by
    rw [List.foldl_cons]
    obtain ⟨I1, I2, I3, I4⟩ := hInv
    have hh0 : HitProp edges cycles h0 := hl h0 (List.mem_cons_self _ _)
    -- facts about the inserted ways
    have F1 : ∀ r : EntityRule, (waysGet (waysInsert st.ways h0.2.2 h0.2.1) r).Nodup := by
      intro r
      by_cases hr : r = h0.2.2
      · subst hr
        rw [waysGet_waysInsert_same]
        split
        · exact I3 h0.2.2
        · rename_i hcont
          rw [List.nodup_append]
          refine ⟨I3 h0.2.2, List.nodup_singleton _, ?_⟩
          intro a ha hb
          rcases List.mem_singleton.mp hb with rfl
          exact hcont (List.elem_iff.mpr ha)
      · rw [waysGet_waysInsert_other _ _ _ _ hr]
        exact I3 r
    have F2 : 1 < h0.2.2.targets.length → ∀ (r : EntityRule) (v : String),
        v ∈ waysGet (waysInsert st.ways h0.2.2 h0.2.1) r →
        v ∈ r.targets ∧ ∃ u, HitProp edges cycles (u, v, r) := by
      intro htl0 r v hv
      by_cases hr : r = h0.2.2
      · subst hr
        rw [waysGet_waysInsert_same] at hv
        split at hv
        · exact I4 h0.2.2 v hv
        · rcases List.mem_append.mp hv with hv2 | hv2
          · exact I4 h0.2.2 v hv2
          · rcases List.mem_singleton.mp hv2 with rfl
            refine ⟨?_, h0.1, hh0⟩
            have hiit : h0.2.2.is_in_target h0.2.1 = true := by
              obtain ⟨c, hc, hlen, hu, hvc, hne, hsrc, hiit, hedge⟩ :=
                hl h0 (List.mem_cons_self _ _)
              exact hiit
            cases he : h0.2.2 with
            | mono s tt ty rs md =>
              rw [he] at htl0
              simp [EntityRule.targets] at htl0
            | multi s ts ty rs md =>
              rw [he] at hiit
              simp only [EntityRule.is_in_target] at hiit
              simp only [EntityRule.targets]
              exact List.elem_iff.mp hiit
      · rw [waysGet_waysInsert_other _ _ _ _ hr] at hv
        exact I4 r v hv
    rcases ringStep_cases st h0 with ⟨htl, hcnt, heq⟩ | ⟨htl, heq⟩ | ⟨htl, heq⟩ <;> rw [heq]
    · refine ringFold_invariant edges cycles t _
        (fun h hh => hl h (List.mem_cons_of_mem _ hh)) ⟨?_, ?_, F1, F2 htl⟩
      · intro x hx
        rcases List.mem_append.mp hx with hx2 | hx2
        · exact I1 x hx2
        · rcases List.mem_singleton.mp hx2 with rfl
          exact hh0
      · intro x hx hxl
        rcases List.mem_append.mp hx with hx2 | hx2
        · exact (I2 x hx2 hxl).trans (waysGet_length_mono _ _ _ _)
        · rcases List.mem_singleton.mp hx2 with rfl
          exact hcnt
    · refine ringFold_invariant edges cycles t _
        (fun h hh => hl h (List.mem_cons_of_mem _ hh)) ⟨I1, ?_, F1, F2 htl⟩
      intro x hx hxl
      exact (I2 x hx hxl).trans (waysGet_length_mono _ _ _ _)
    · refine ringFold_invariant edges cycles t _
        (fun h hh => hl h (List.mem_cons_of_mem _ hh)) ⟨?_, ?_, I3, I4⟩
      · intro x hx
        rcases List.mem_append.mp hx with hx2 | hx2
        · exact I1 x hx2
        · rcases List.mem_singleton.mp hx2 with rfl
          exact hh0
      · intro x hx hxl
        rcases List.mem_append.mp hx with hx2 | hx2
        · exact I2 x hx2 hxl
        · rcases List.mem_singleton.mp hx2 with rfl
          exact absurd hxl htl

theorem mem_groupByName (l : List (String × String × EntityRule)) (n : String)
    (rs : List EntityRule) (r : EntityRule)
    (hg : (n, rs) ∈ groupByName l) (hr : r ∈ rs) : ∃ v, (n, v, r) ∈ l := by
  rw [groupByName] at hg
  obtain ⟨n0, _, heq⟩ := List.mem_map.mp hg
  obtain ⟨h1, h2⟩ : n0 = n ∧ (l.filter (fun h => h.1 = n0)).map (fun h => h.2.2) = rs :=
    ⟨congrArg Prod.fst heq, congrArg Prod.snd heq⟩
  subst h1
  rw [← h2] at hr
  obtain ⟨x, hx, hxr⟩ := List.mem_map.mp hr
  rw [List.mem_filter] at hx
  obtain ⟨hxl, hx1⟩ := hx
  rw [decide_eq_true_eq] at hx1
  refine ⟨x.2.1, ?_⟩
  have hxeq : x = (n0, x.2.1, r) := by
    rw [← hx1, ← hxr]
  exact hxeq ▸ hxl

theorem ringSolve_conflict_eq (es : List Entity) (cycles : List (List String))
    (cs : List (String × List EntityRule))
    (h : RingSolver.solve es cycles = .conflict cs) :
    cs = groupByName (ringFinal (ringFirstPass (requireEdges es) cycles)) := by
  rw [RingSolver.solve] at h
  split at h
  · exact absurd h (by simp)
  · simp only [] at h
    split at h
    · exact absurd h (by simp)
    · injection h with h1
      exact h1.symm

theorem mem_ringFinal (st : RingState) (x : String × String × EntityRule)
    (h : x ∈ ringFinal st) : x ∈ st.conflicts := by
  rw [ringFinal] at h
  exact (List.mem_filter.mp h).1

/-- C5: every rule reported by `RingSolver::solve` (given that the
external cycle enumeration returns genuine simple cycles of the
require graph) labels an edge `u → v` with `v ≠ u` whose target `v`
reaches `u` back through require-edges — i.e. the rule participates in
a directed require-cycle of length ≥ 2; a Multi require rule is
reported only after every one of its targets has occurred as a
within-cycle target across the walked cycles; and a walked Mono edge
occurrence is pushed to the conflict set immediately. -/
theorem c5_ring_soundness (es : List Entity) (cycles : List (List String))
    (hcyc : ∀ c ∈ cycles, IsCycleOf (requireEdges es) c) :
    (∀ cs, RingSolver.solve es cycles = .conflict cs →
      ∀ p ∈ cs, ∀ r ∈ p.2,
        (∃ u v, (u, v, r) ∈ requireEdges es ∧ ¬v = u ∧
          Relation.ReflTransGen (hasEdge (requireEdges es)) v u) ∧
        (1 < r.targets.length → ∀ t ∈ r.targets, ∃ u,
          (u, t, r) ∈ ringHits (requireEdges es) cycles)) ∧
    (∀ h ∈ ringHits (requireEdges es) cycles, h.2.2.targets.length ≤ 1 →
      h ∈ (ringFirstPass (requireEdges es) cycles).conflicts) := by
  have hinv := ringFold_invariant (requireEdges es) cycles
    (ringHits (requireEdges es) cycles) ⟨[], []⟩
    (fun h hh => (mem_ringHits_iff _ _ h).mp hh)
    ⟨fun x hx => absurd hx (List.not_mem_nil x),
     fun x hx => absurd hx (List.not_mem_nil x),
     fun r => by simp [waysGet],
     fun r v hv => absurd hv (by simp [waysGet])⟩
  obtain ⟨I1, I2, I3, I4⟩ := hinv
  constructor
  · intro cs hcs p hp r hr
    have hcseq := ringSolve_conflict_eq es cycles cs hcs
    rw [hcseq] at hp
    obtain ⟨v, hxv⟩ := mem_groupByName _ p.1 p.2 r hp hr
    have hconf : (p.1, v, r) ∈ (ringFirstPass (requireEdges es) cycles).conflicts :=
      mem_ringFinal _ _ hxv
    have hhit := I1 _ hconf
    obtain ⟨c, hc, hlen, hu, hv, hne, hsrc, hiit, hedge⟩ := hhit
    constructor
    · exact ⟨p.1, v, hedge, hne, cycle_reach (hcyc c hc) hv hu⟩
    · intro htl t ht
      have hlen2 := I2 _ hconf htl
      have hWn := I3 r
      have hWsub : ∀ v2 ∈ waysGet (ringFirstPass (requireEdges es) cycles).ways r,
          v2 ∈ r.targets := fun v2 hv2 => (I4 r v2 hv2).1
      have hsub : (waysGet (ringFirstPass (requireEdges es) cycles).ways r).toFinset ⊆
          r.targets.toFinset := fun a ha =>
        List.mem_toFinset.mpr (hWsub a (List.mem_toFinset.mp ha))
      have hcard : r.targets.toFinset.card ≤
          (waysGet (ringFirstPass (requireEdges es) cycles).ways r).toFinset.card := by
        calc r.targets.toFinset.card ≤ r.targets.length := List.toFinset_card_le _
          _ ≤ (waysGet (ringFirstPass (requireEdges es) cycles).ways r).length := hlen2
          _ = _ := (List.toFinset_card_of_nodup hWn).symm
      have heqf := Finset.eq_of_subset_of_card_le hsub hcard
      have htW : t ∈ waysGet (ringFirstPass (requireEdges es) cycles).ways r := by
        have ht2 : t ∈ r.targets.toFinset := List.mem_toFinset.mpr ht
        rw [← heqf] at ht2
        exact List.mem_toFinset.mp ht2
      obtain ⟨-, u2, hu2⟩ := I4 r t htW
      exact ⟨u2, (mem_ringHits_iff _ _ _).mpr hu2⟩
  · intro h hh hmono
    exact mono_hits_pushed _ _ h hh hmono

/-- C5 witness: the soundness statement at the two-entity 2-cycle
`a require b`, `b require a` with the cycle list `[[a, b]]`. -/
theorem c5_ring_soundness_witness :
    (∀ c ∈ [["a", "b"]], IsCycleOf (requireEdges c5wEs) c) ∧
    ((∀ cs, RingSolver.solve c5wEs [["a", "b"]] = SolverOutput.conflict cs →
      ∀ p ∈ cs, ∀ r ∈ p.2,
        (∃ u v, (u, v, r) ∈ requireEdges c5wEs ∧ ¬v = u ∧
          Relation.ReflTransGen (hasEdge (requireEdges c5wEs)) v u) ∧
        (1 < r.targets.length → ∀ t ∈ r.targets, ∃ u,
          (u, t, r) ∈ ringHits (requireEdges c5wEs) [["a", "b"]])) ∧
     (∀ h ∈ ringHits (requireEdges c5wEs) [["a", "b"]], h.2.2.targets.length ≤ 1 →
       h ∈ (ringFirstPass (requireEdges c5wEs) [["a", "b"]]).conflicts)) :=
  ⟨by decide, c5_ring_soundness c5wEs [["a", "b"]] (by decide)⟩

end DeployFix
